import Mathlib

/-!
Verification of the recursive hierarchical config merge/diff/format engine and
the comment-preserving persistence layer of the opencode-agent-modes plugin.

JavaScript/JSON values are modelled by the inductive type `Json`:
* numbers are carried as their canonical JavaScript string rendering
  (`String(n)`), so `0.5` is `Json.num "0.5"`; equality of canonical
  renderings coincides with `===` on numbers;
* objects are insertion-ordered association lists, matching the iteration
  order of `Object.entries` / `Object.keys` for string keys;
* JavaScript objects never carry duplicate keys, so theorems assume the
  well-formedness predicate `wfJson` where the distinction matters.
-/

set_option autoImplicit false
set_option linter.unusedTactic false

namespace AgentModes

inductive Json where
  | null : Json
  | bool : Bool → Json
  | num : String → Json
  | str : String → Json
  | arr : List Json → Json
  | obj : List (String × Json) → Json

mutual

def jsonDecEq : (a b : Json) → Decidable (a = b)
  | .null, .null => isTrue rfl
  | .null, .bool _ => isFalse (fun h => Json.noConfusion h)
  | .null, .num _ => isFalse (fun h => Json.noConfusion h)
  | .null, .str _ => isFalse (fun h => Json.noConfusion h)
  | .null, .arr _ => isFalse (fun h => Json.noConfusion h)
  | .null, .obj _ => isFalse (fun h => Json.noConfusion h)
  | .bool _, .null => isFalse (fun h => Json.noConfusion h)
  | .bool x, .bool y =>
      if h : x = y then isTrue (by rw [h]) else isFalse (by simp [h])
  | .bool _, .num _ => isFalse (fun h => Json.noConfusion h)
  | .bool _, .str _ => isFalse (fun h => Json.noConfusion h)
  | .bool _, .arr _ => isFalse (fun h => Json.noConfusion h)
  | .bool _, .obj _ => isFalse (fun h => Json.noConfusion h)
  | .num _, .null => isFalse (fun h => Json.noConfusion h)
  | .num _, .bool _ => isFalse (fun h => Json.noConfusion h)
  | .num x, .num y =>
      if h : x = y then isTrue (by rw [h]) else isFalse (by simp [h])
  | .num _, .str _ => isFalse (fun h => Json.noConfusion h)
  | .num _, .arr _ => isFalse (fun h => Json.noConfusion h)
  | .num _, .obj _ => isFalse (fun h => Json.noConfusion h)
  | .str _, .null => isFalse (fun h => Json.noConfusion h)
  | .str _, .bool _ => isFalse (fun h => Json.noConfusion h)
  | .str _, .num _ => isFalse (fun h => Json.noConfusion h)
  | .str x, .str y =>
      if h : x = y then isTrue (by rw [h]) else isFalse (by simp [h])
  | .str _, .arr _ => isFalse (fun h => Json.noConfusion h)
  | .str _, .obj _ => isFalse (fun h => Json.noConfusion h)
  | .arr _, .null => isFalse (fun h => Json.noConfusion h)
  | .arr _, .bool _ => isFalse (fun h => Json.noConfusion h)
  | .arr _, .num _ => isFalse (fun h => Json.noConfusion h)
  | .arr _, .str _ => isFalse (fun h => Json.noConfusion h)
  | .arr xs, .arr ys =>
      match jsonArrDecEq xs ys with
      | isTrue h => isTrue (by rw [h])
      | isFalse h => isFalse (by simp [h])
  | .arr _, .obj _ => isFalse (fun h => Json.noConfusion h)
  | .obj _, .null => isFalse (fun h => Json.noConfusion h)
  | .obj _, .bool _ => isFalse (fun h => Json.noConfusion h)
  | .obj _, .num _ => isFalse (fun h => Json.noConfusion h)
  | .obj _, .str _ => isFalse (fun h => Json.noConfusion h)
  | .obj _, .arr _ => isFalse (fun h => Json.noConfusion h)
  | .obj xs, .obj ys =>
      match jsonObjDecEq xs ys with
      | isTrue h => isTrue (by rw [h])
      | isFalse h => isFalse (by simp [h])

def jsonArrDecEq : (a b : List Json) → Decidable (a = b)
  | [], [] => isTrue rfl
  | [], _ :: _ => isFalse (fun h => List.noConfusion h)
  | _ :: _, [] => isFalse (fun h => List.noConfusion h)
  | x :: xs, y :: ys =>
      match jsonDecEq x y with
      | isFalse h => isFalse (by simp [h])
      | isTrue h1 =>
        match jsonArrDecEq xs ys with
        | isTrue h2 => isTrue (by rw [h1, h2])
        | isFalse h2 => isFalse (by simp [h2])

def jsonObjDecEq : (a b : List (String × Json)) → Decidable (a = b)
  | [], [] => isTrue rfl
  | [], _ :: _ => isFalse (fun h => List.noConfusion h)
  | _ :: _, [] => isFalse (fun h => List.noConfusion h)
  | (k, v) :: xs, (k', v') :: ys =>
      if hk : k = k' then
        match jsonDecEq v v' with
        | isFalse h => isFalse (by simp [h])
        | isTrue h1 =>
          match jsonObjDecEq xs ys with
          | isTrue h2 => isTrue (by rw [hk, h1, h2])
          | isFalse h2 => isFalse (by simp [h2])
      else isFalse (by simp [hk])

end

instance : DecidableEq Json := jsonDecEq

abbrev JsonObj := List (String × Json)

/-- First-match association-list lookup, the semantics of reading a property
of a plain JavaScript object (`undefined` becomes `none`). -/
def jsGet : JsonObj → String → Option Json
  | [], _ => none
  | (k', v) :: rest, k => if k' = k then some v else jsGet rest k

/-- Property assignment `o[k] = v` on a plain object: replaces the value in
place when the key exists, otherwise appends the key at the end, exactly the
key-order behaviour of JavaScript objects. -/
def jsSet : JsonObj → String → Json → JsonObj
  | [], k, v => [(k, v)]
  | (k', v') :: rest, k, v =>
      if k' = k then (k', v) :: rest else (k', v') :: jsSet rest k v

/-- Object-literal spread `{...a, ...b}`: the fields of `b` are assigned over
`a` in iteration order. -/
def jsSpread2 (a b : JsonObj) : JsonObj :=
  b.foldl (fun acc p => jsSet acc p.1 p.2) a

/-- Canonical decimal digits of a natural number (most significant first),
accumulated onto `acc`; this is the JavaScript rendering `String(n)` used for
array index keys and `length` values. -/
def natToDecCore (n : Nat) (acc : List Char) : List Char :=
  if _h : n < 10 then Char.ofNat (n % 10 + 48) :: acc
  else natToDecCore (n / 10) (Char.ofNat (n % 10 + 48) :: acc)
termination_by n
decreasing_by exact Nat.div_lt_self (by omega) (by omega)

def natToDec (n : Nat) : String :=
  String.mk (natToDecCore n [])

/-- Decimal parsing of a string of digits, mirroring how JavaScript decides
whether a string property name denotes an array index (every character a
digit, nonempty). -/
def strToNat? (s : String) : Option Nat :=
  match s.data with
  | [] => none
  | c :: cs =>
      if (c :: cs).all Char.isDigit then
        some ((c :: cs).foldl (fun a ch => a * 10 + (ch.toNat - 48)) 0)
      else none

/-- JavaScript truthiness of a value. With numbers carried as their canonical
rendering, the falsy numbers `0`, `-0` and `NaN` render as `"0"` and `"NaN"`. -/
def jsTruthy : Json → Bool
  | .null => false
  | .bool b => b
  | .num s => !(s = "0" || s = "NaN")
  | .str s => !(s = "")
  | .arr _ => true
  | .obj _ => true

/-- `isObject` from `src/config/guards.ts`: a plain object — not null, not an
array (JavaScript `typeof obj === 'object' && obj !== null && !Array.isArray(obj)`). -/
def isObject : Json → Bool
  | .obj _ => true
  | _ => false

/-- `isLeafNode` from `src/modes/manager.ts`: the node has a key `"model"`
whose value is a string. -/
def isLeafNode (value : JsonObj) : Bool :=
  match jsGet value "model" with
  | some (.str _) => true
  | _ => false

/-- Reading property `k` of an arbitrary JavaScript value (`undefined` is
`none`): own fields of objects; canonical index properties and `length` of
arrays and strings; nothing on other primitives. Reading a property of `null`
would throw in JavaScript, but every call site modelled here reads properties
only of values already checked to be truthy (or of loaded documents), so
`none` for `null` is never observed. -/
def jsProp : Json → String → Option Json
  | .obj o, k => jsGet o k
  | .arr xs, k =>
      (match strToNat? k with
       | some n => if natToDec n = k then xs.get? n else none
       | none => if k = "length" then some (.num (natToDec xs.length)) else none)
  | .str s, k =>
      (match strToNat? k with
       | some n =>
           if natToDec n = k then (s.data.get? n).map (fun c => Json.str (String.mk [c])) else none
       | none => if k = "length" then some (.num (natToDec s.data.length)) else none)
  | _, _ => none

/-- Fields contributed by spreading a value into an object literal
(`{...v}`): an object's own fields; the indexed elements of an array or
string; nothing for other primitives. -/
def spreadFields : Json → JsonObj
  | .obj o => o
  | .arr xs => xs.enum.map (fun p => (natToDec p.1, p.2))
  | .str s => s.data.enum.map (fun p => (natToDec p.1, Json.str (String.mk [p.2])))
  | _ => []

mutual

/-- Well-formedness of a modelled JavaScript value: every object node carries
pairwise-distinct keys, as real JavaScript objects always do. -/
def wfJson : Json → Bool
  | .null => true
  | .bool _ => true
  | .num _ => true
  | .str _ => true
  | .arr xs => wfArr xs
  | .obj fs => decide ((fs.map Prod.fst).Nodup) && wfObj fs

def wfArr : List Json → Bool
  | [] => true
  | x :: xs => wfJson x && wfArr xs

def wfObj : List (String × Json) → Bool
  | [] => true
  | p :: rest => wfJson p.2 && wfObj rest

end

/-- Descent through object fields only (`t.a.b.c` on a tree of plain
objects); `none` when a step is missing or the node is not an object. This is
what "the value of the tree at a path" means for the hierarchical trees of
the claims. -/
def getPath : Json → List String → Option Json
  | j, [] => some j
  | .obj o, k :: rest =>
      (match jsGet o k with
       | some v => getPath v rest
       | none => none)
  | _, _ :: _ => none

/-- Descent through arbitrary JavaScript property reads (`jsProp`), the
semantics of chained `a[k1][k2]…` element access. -/
def jsPathGet : Json → List String → Option Json
  | j, [] => some j
  | j, k :: rest =>
      (match jsProp j k with
       | some v => jsPathGet v rest
       | none => none)

/-- Does the object have a field whose value is a plain object? When the
merge recurses into a primitive target, the first such field makes the
JavaScript original throw (assignment to a property of a primitive in strict
mode) or, for an array target, leave the JSON value domain. -/
def hasObjEntry (o : JsonObj) : Bool :=
  o.any (fun p => isObject p.2)

/-- The fields spread as `existing` by the merge's leaf case:
`{...(target[key] ?? {})}` — nothing when the slot is absent or null, the
spread fields of the stored value otherwise. -/
def mergeExisting : Option Json → JsonObj
  | none => []
  | some Json.null => []
  | some j => spreadFields j

mutual

/-- `deepMergeModel` from `src/modes/manager.ts`, destructive merge of a
hierarchical preset into a target object, modelled functionally (the final
value of `target`). `none` models the runs that throw a `TypeError`
(recursing into a primitive target and assigning) or leave the JSON value
domain (recursing into an array target that receives object-valued fields);
no claim exercises those runs. -/
def deepMergeModel (target : JsonObj) : JsonObj → Option JsonObj
  | [] => some target
  | (k, v) :: rest =>
      match deepMergeEntry target k v with
      | some target' => deepMergeModel target' rest
      | none => none

/-- Processing of one preset entry by `deepMergeModel`: skip non-objects,
overlay leaves (`{...existing, ...value}` over `target[key] ?? {}`), recurse
into branches via `target[key] ?? {}`. -/
def deepMergeEntry (target : JsonObj) (k : String) : Json → Option JsonObj
  | Json.obj vo =>
      if isLeafNode vo then
        some (jsSet target k (Json.obj (jsSpread2 (mergeExisting (jsGet target k)) vo)))
      else
        (match jsGet target k with
         | some (Json.obj o) =>
             (deepMergeModel o vo).map (fun o' => jsSet target k (Json.obj o'))
         | none =>
             (deepMergeModel [] vo).map (fun o' => jsSet target k (Json.obj o'))
         | some Json.null =>
             (deepMergeModel [] vo).map (fun o' => jsSet target k (Json.obj o'))
         | some other =>
             if hasObjEntry vo then none
             else some (jsSet target k other))
  | _ => some target

end

mutual

/-- The structural (JSON-value level) reading of `hasDriftRecursive` from
`src/modes/manager.ts`, in which the field comparison `!==` is taken as
structural inequality of JSON values. This is the idealization under which
the C2 claim reads; it coincides with JavaScript `!==` on primitive field
values but NOT on object- or array-valued fields, which JavaScript compares
by reference. The reference-faithful translation is `hasDriftRecursiveR`
below, over values carrying heap identity. The `actual` side is an arbitrary
value because the source recurses through unchecked casts. -/
def hasDriftRecursive (actual : Json) : JsonObj → Bool
  | [] => false
  | (k, ev) :: rest =>
      if hasDriftEntry actual k ev then true
      else hasDriftRecursive actual rest

/-- Whether one expected entry reports drift under the structural reading:
non-objects never do; an expected leaf drifts when `actual[key]` is falsy or
missing or some expected field differs structurally; a branch recurses into
`actual[key] || {}`. -/
def hasDriftEntry (actual : Json) (k : String) : Json → Bool
  | Json.obj evo =>
      if isLeafNode evo then
        (match jsProp actual k with
         | none => true
         | some a =>
             if jsTruthy a then
               evo.any (fun p => decide (jsProp a p.1 ≠ some p.2))
             else true)
      else
        hasDriftRecursive
          (match jsProp actual k with
           | some a => if jsTruthy a then a else Json.obj []
           | none => Json.obj []) evo
  | _ => false

end

/-! ### Reference-aware runtime values and the faithful drift detector -/

/-- A JavaScript runtime value as the drift detector receives it: a JSON
tree whose object and array nodes additionally carry their heap identity.
JavaScript `===`/`!==` compares primitives by type and value but objects and
arrays by identity, so two separately parsed or separately constructed
objects are never `===` even when structurally equal. -/
inductive RJson where
  | null : RJson
  | bool : Bool → RJson
  | num : String → RJson
  | str : String → RJson
  | arr : Nat → List RJson → RJson
  | obj : Nat → List (String × RJson) → RJson

abbrev RObj := List (String × RJson)

/-- What JavaScript strict equality inspects of a value: primitives by type
and value, objects and arrays by heap identity alone. `x === y` for the JSON
runtime values in play here is exactly `refOf x = refOf y`. -/
inductive RRef where
  | null : RRef
  | bool : Bool → RRef
  | num : String → RRef
  | str : String → RRef
  | arrRef : Nat → RRef
  | objRef : Nat → RRef
  deriving DecidableEq

def refOf : RJson → RRef
  | .null => .null
  | .bool b => .bool b
  | .num s => .num s
  | .str s => .str s
  | .arr i _ => .arrRef i
  | .obj i _ => .objRef i

/-- First-match association-list lookup over reference-aware values. -/
def rGet : RObj → String → Option RJson
  | [], _ => none
  | (k', v) :: rest, k => if k' = k then some v else rGet rest k

/-- Truthiness of a reference-aware value (identities are irrelevant). -/
def rTruthy : RJson → Bool
  | .null => false
  | .bool b => b
  | .num s => !(s = "0" || s = "NaN")
  | .str s => !(s = "")
  | .arr _ _ => true
  | .obj _ _ => true

/-- `isLeafNode` over reference-aware values. -/
def isLeafNodeR (value : RObj) : Bool :=
  match rGet value "model" with
  | some (.str _) => true
  | _ => false

/-- Property read over reference-aware values (mirror of `jsProp`). -/
def rProp : RJson → String → Option RJson
  | .obj _ o, k => rGet o k
  | .arr _ xs, k =>
      (match strToNat? k with
       | some n => if natToDec n = k then xs.get? n else none
       | none => if k = "length" then some (.num (natToDec xs.length)) else none)
  | .str s, k =>
      (match strToNat? k with
       | some n =>
           if natToDec n = k then (s.data.get? n).map (fun c => RJson.str (String.mk [c]))
           else none
       | none => if k = "length" then some (.num (natToDec s.data.length)) else none)
  | _, _ => none

mutual

/-- Well-formedness of a reference-aware value: every object node carries
pairwise-distinct keys, as real JavaScript objects always do. -/
def wfR : RJson → Bool
  | .null => true
  | .bool _ => true
  | .num _ => true
  | .str _ => true
  | .arr _ xs => wfArrR xs
  | .obj _ fs => decide ((fs.map Prod.fst).Nodup) && wfObjR fs

def wfArrR : List RJson → Bool
  | [] => true
  | x :: xs => wfR x && wfArrR xs

def wfObjR : RObj → Bool
  | [] => true
  | p :: rest => wfR p.2 && wfObjR rest

end

mutual

/-- `hasDriftRecursive` from `src/modes/manager.ts` over reference-aware
runtime values: the field comparison `actualObj[propKey] !==
expectedPropValue` is JavaScript strict inequality — `refOf`-inequality, by
value on primitives and by heap identity on objects and arrays. -/
def hasDriftRecursiveR (actual : RJson) : RObj → Bool
  | [] => false
  | (k, ev) :: rest =>
      if hasDriftEntryR actual k ev then true
      else hasDriftRecursiveR actual rest

/-- Whether one expected entry reports drift (reference-faithful): the
mirror of `hasDriftEntry` with strict comparison via `refOf`; the `{}`
fallback object is fresh, and no property of it is ever compared, so its
identity is immaterial (`0` here). -/
def hasDriftEntryR (actual : RJson) (k : String) : RJson → Bool
  | RJson.obj _ evo =>
      if isLeafNodeR evo then
        (match rProp actual k with
         | none => true
         | some a =>
             if rTruthy a then
               evo.any (fun p => decide ((rProp a p.1).map refOf ≠ some (refOf p.2)))
             else true)
      else
        hasDriftRecursiveR
          (match rProp actual k with
           | some a => if rTruthy a then a else RJson.obj 0 []
           | none => RJson.obj 0 []) evo
  | _ => false

end

mutual

/-- Forgetting heap identities: the JSON value of a runtime value. -/
def eraseR : RJson → Json
  | .null => .null
  | .bool b => .bool b
  | .num s => .num s
  | .str s => .str s
  | .arr _ xs => .arr (eraseArrR xs)
  | .obj _ fs => .obj (eraseObjR fs)

def eraseArrR : List RJson → List Json
  | [] => []
  | x :: xs => eraseR x :: eraseArrR xs

def eraseObjR : RObj → JsonObj
  | [] => []
  | (k, v) :: rest => (k, eraseR v) :: eraseObjR rest

end

/-! ### Tree formatting (`formatHierarchicalTree`) -/

def hexDigitChar (n : Nat) : Char :=
  Char.ofNat (if n < 10 then 48 + n else 87 + n)

/-- JSON string escaping as performed by `JSON.stringify`. -/
def jsonEscapeChar (c : Char) : String :=
  if c = '"' then "\\\""
  else if c = '\\' then "\\\\"
  else if c = '\n' then "\\n"
  else if c = '\t' then "\\t"
  else if c = '\r' then "\\r"
  else if c.toNat = 8 then "\\b"
  else if c.toNat = 12 then "\\f"
  else if c.toNat < 32 then
    "\\u00" ++ String.mk [hexDigitChar (c.toNat / 16), hexDigitChar (c.toNat % 16)]
  else String.mk [c]

def jsonQuote (s : String) : String :=
  "\"" ++ String.join (s.data.map jsonEscapeChar) ++ "\""

mutual

/-- Compact `JSON.stringify(v)`, used by the formatter for extra leaf
fields. -/
def jsonStringify : Json → String
  | .null => "null"
  | .bool b => if b then "true" else "false"
  | .num s => s
  | .str s => jsonQuote s
  | .arr xs => "[" ++ String.intercalate "," (jsonStringifyArr xs) ++ "]"
  | .obj fs => "\x7b" ++ String.intercalate "," (jsonStringifyObj fs) ++ "\x7d"

def jsonStringifyArr : List Json → List String
  | [] => []
  | x :: xs => jsonStringify x :: jsonStringifyArr xs

def jsonStringifyObj : List (String × Json) → List String
  | [] => []
  | (k, v) :: rest => (jsonQuote k ++ ":" ++ jsonStringify v) :: jsonStringifyObj rest

end

mutual

/-- JavaScript string coercion `String(v)` / template-literal interpolation
`${v}`. -/
def jsTemplateStr : Json → String
  | .null => "null"
  | .bool b => if b then "true" else "false"
  | .num s => s
  | .str s => s
  | .arr xs => String.intercalate "," (jsArrayItemStrs xs)
  | .obj _ => "[object Object]"

def jsArrayItemStrs : List Json → List String
  | [] => []
  | x :: xs =>
      (match x with
       | Json.null => ""
       | y => jsTemplateStr y) :: jsArrayItemStrs xs

end

/-- The text after `<indent><key>: ` on a leaf line: the coerced model,
the optional ` (variant)` for a truthy variant, and the bracketed list of the
remaining fields rendered with `JSON.stringify`, in key iteration order. -/
def leafLineText (vo : JsonObj) : String :=
  let modelText :=
    match jsGet vo "model" with
    | some j => jsTemplateStr j
    | none => "undefined"
  let variant :=
    match jsGet vo "variant" with
    | some j => if jsTruthy j then " (" ++ jsTemplateStr j ++ ")" else ""
    | none => ""
  let otherKeys := (vo.map Prod.fst).filter (fun k0 => k0 != "model" && k0 != "variant")
  let parts := otherKeys.map (fun k0 =>
    k0 ++ ": " ++
      (match jsGet vo k0 with
       | some j => jsonStringify j
       | none => "undefined"))
  let otherProps := String.intercalate ", " parts
  let extra := if otherProps = "" then "" else " [" ++ otherProps ++ "]"
  modelText ++ variant ++ extra

mutual

/-- The `lines` array accumulated by `formatHierarchicalTree`: one line per
leaf entry, a heading line plus one recursively formatted block per branch
entry, nothing for non-object entries. -/
def formatLines : JsonObj → String → List String
  | [], _ => []
  | (k, v) :: rest, indent =>
      formatEntryLines k v indent ++ formatLines rest indent

/-- The lines contributed by a single entry. -/
def formatEntryLines (k : String) : Json → String → List String
  | Json.obj vo, indent =>
      if isLeafNode vo then
        [indent ++ k ++ ": " ++ leafLineText vo]
      else
        [indent ++ k ++ ":", String.intercalate "\n" (formatLines vo (indent ++ "  "))]
  | _, _ => []

end

/-- `formatHierarchicalTree` from `src/modes/manager.ts` (the call sites pass
the default indent `"  "`). -/
def formatHierarchicalTree (preset : JsonObj) (indent : String) : String :=
  String.intercalate "\n" (formatLines preset indent)

/-! ### Comment-preserving persistence (`src/config/loader.ts`) -/

mutual

/-- `deepEqual` from `src/config/loader.ts`: structural equality, pointwise
on arrays, key-lookup based with an entry-count check on objects. (`===` on
numbers is equality of canonical renderings here; `NaN`, on which JavaScript
`===` is never true, cannot appear in a parsed JSON document.) -/
def deepEqual : Json → Json → Bool
  | Json.null, b => match b with | Json.null => true | _ => false
  | Json.bool x, b => match b with | Json.bool y => x == y | _ => false
  | Json.num x, b => match b with | Json.num y => x == y | _ => false
  | Json.str x, b => match b with | Json.str y => x == y | _ => false
  | Json.arr xs, b =>
      match b with
      | Json.arr ys => (xs.length == ys.length) && deepEqualArr xs ys
      | _ => false
  | Json.obj fs, b =>
      match b with
      | Json.obj gs => (fs.length == gs.length) && deepEqualFields fs gs
      | _ => false

def deepEqualArr : List Json → List Json → Bool
  | [], _ => true
  | _ :: _, [] => false
  | x :: xs, y :: ys => deepEqual x y && deepEqualArr xs ys

def deepEqualFields : List (String × Json) → JsonObj → Bool
  | [], _ => true
  | (k, v) :: rest, gs =>
      (match jsGet gs k with
       | some w => deepEqual v w
       | none => false) && deepEqualFields rest gs

end

def getValueAtPathGo : Option Json → List String → Option Json
  | cur, [] => cur
  | none, _ :: _ => none
  | some j, k :: rest =>
      match j with
      | Json.null => none
      | Json.obj o => getValueAtPathGo (jsGet o k) rest
      | Json.arr xs => getValueAtPathGo (jsProp (Json.arr xs) k) rest
      | _ => none

/-- `getValueAtPath` from `src/config/loader.ts`: walks the path while the
current value is a non-null `typeof 'object'` value (plain object or array),
returning `undefined` (`none`) otherwise. -/
def getValueAtPath (objData : Json) (path : List String) : Option Json :=
  getValueAtPathGo (some objData) path

/-- The two external `jsonc-parser` services consumed by the loader —
parsing JSONC text, and `applyEdits(content, modify(content, path, value,
modifyOptions))` — are library code outside this repository, so the model
takes them as opaque parameters. -/
structure PatchEnv where
  parseJsonc : String → Json
  modifyApply : String → List String → Json → String

/-- The guard `originalValue !== undefined && deepEqual(originalValue,
newValue)` of `updateLeafValues`. -/
def skipUnchanged (originalValue : Option Json) (newValue : Json) : Bool :=
  match originalValue with
  | some ov => deepEqual ov newValue
  | none => false

mutual

/-- `updateLeafValues` from `src/config/loader.ts`: leave the text alone when
the new value deep-equals the original value at the path; apply a single text
edit for primitives, null and arrays; recurse key by key (threading the
partially edited text) for objects. -/
def updateLeafValues (env : PatchEnv) (content : String) (basePath : List String)
    (newValue : Json) (originalData : Json) : String :=
  if skipUnchanged (getValueAtPath originalData basePath) newValue then content
  else
    match newValue with
    | Json.obj o => updateLeafObj env content basePath o originalData
    | nv => env.modifyApply content basePath nv

def updateLeafObj (env : PatchEnv) (content : String) (basePath : List String) :
    JsonObj → Json → String
  | [], _ => content
  | (k, v) :: rest, originalData =>
      updateLeafObj env (updateLeafValues env content (basePath ++ [k]) v originalData)
        basePath rest originalData

end

mutual

/-- Pretty `JSON.stringify(data, null, 2)` with the indentation of the
surrounding context as second argument (the top-level call passes `""`). -/
def stringifyPretty : Json → String → String
  | Json.arr [], _ => "[]"
  | Json.arr (x :: xs), ind =>
      "[\n" ++ String.intercalate ",\n" (stringifyPrettyArr (x :: xs) (ind ++ "  "))
        ++ "\n" ++ ind ++ "]"
  | Json.obj [], _ => "\x7b\x7d"
  | Json.obj (f :: fs), ind =>
      "\x7b\n" ++ String.intercalate ",\n" (stringifyPrettyObj (f :: fs) (ind ++ "  "))
        ++ "\n" ++ ind ++ "\x7d"
  | j, _ => jsonStringify j

def stringifyPrettyArr : List Json → String → List String
  | [], _ => []
  | x :: xs, ind => (ind ++ stringifyPretty x ind) :: stringifyPrettyArr xs ind

def stringifyPrettyObj : List (String × Json) → String → List String
  | [], _ => []
  | (k, v) :: rest, ind =>
      (ind ++ jsonQuote k ++ ": " ++ stringifyPretty v ind) :: stringifyPrettyObj rest ind

end

/-- Is the value a non-null `typeof 'object'` value (plain object or
array)? -/
def typeofObjectNonNull : Json → Bool
  | Json.obj _ => true
  | Json.arr _ => true
  | _ => false

/-- `Object.keys`/element enumeration of a non-null object as used by
`saveJsonFile`: fields of plain objects, indexed elements of arrays. -/
def entriesForKeys : Json → JsonObj
  | Json.obj fs => fs
  | Json.arr xs => xs.enum.map (fun p => (natToDec p.1, p.2))
  | _ => []

/-- `saveJsonFile` from `src/config/loader.ts`, for one file: given the
cached original text of that path (if any) and the data tree, returns the
text written to disk together with the refreshed cache entry for the path.
The patching branch requires a truthy cached text and a non-null
object-typed `data`; otherwise the data is pretty-printed afresh. -/
def saveJsonFile (env : PatchEnv) (cachedOriginal : Option String) (data : Json) :
    String × String :=
  match cachedOriginal with
  | some originalContent =>
      if originalContent != "" && typeofObjectNonNull data then
        let originalData := env.parseJsonc originalContent
        let content := updateLeafObj env originalContent [] (entriesForKeys data) originalData
        (content, content)
      else
        let content := stringifyPretty data ""
        (content, content)
  | none =>
      let content := stringifyPretty data ""
      (content, content)

/-! ### Preset initializer (`src/config/initializer.ts`) -/

def DEFAULT_ECONOMY_MODEL : String := "opencode/glm-4.7-free"

structure ModePreset where
  description : String
  model : Option Json
  opencode : JsonObj
  ohMyOpencode : JsonObj
  deriving DecidableEq

structure ModeSwitcherConfig where
  currentMode : String
  showToastOnStartup : Bool
  presets : List (String × ModePreset)
  deriving DecidableEq

def lookupPreset : List (String × ModePreset) → String → Option ModePreset
  | [], _ => none
  | (k', p) :: rest, k => if k' = k then some p else lookupPreset rest k

/-- A write attempted by the system (a `Bun.write` invocation), recording the
file and the value serialized to it. -/
inductive WriteEvent where
  | opencodeFile (doc : Json)
  | ohMyFile (doc : Json)
  | pluginFile (cfg : ModeSwitcherConfig)
  deriving DecidableEq

mutual

/-- `applyEconomyModel` from `src/config/initializer.ts`: rebuild the tree,
overwriting the `model` field (in place, other fields untouched) of every
object node that has a `model` key of any type, recursing into object nodes
without one, copying other values unchanged. -/
def applyEconomyModel : JsonObj → String → JsonObj
  | [], _ => []
  | (k, v) :: rest, economyModel =>
      (k, applyEconomyValue v economyModel) :: applyEconomyModel rest economyModel

/-- The image of one value under `applyEconomyModel`. -/
def applyEconomyValue : Json → String → Json
  | Json.obj vo, economyModel =>
      if (jsGet vo "model").isSome then
        Json.obj (jsSet vo "model" (Json.str economyModel))
      else
        Json.obj (applyEconomyModel vo economyModel)
  | v, _ => v

end

/-- The outcomes of the file primitives consumed by `initializeConfig`:
whether the plugin state file exists, what `loadPluginConfig` /
`loadOpencodeConfig` / `loadOhMyOpencodeConfig` parse to (`none` models the
`null` returned for a missing or unreadable file), and whether writing the
plugin state file succeeds. -/
structure InitEnv where
  pluginExists : Bool
  pluginLoad : Option Json
  opencodeDoc : Option Json
  ohMyDoc : Option Json
  savePluginResult : Except String Unit

/-- `(opencodeConfig?.agent as HierarchicalPreset) || {}` — the host agent
subtree as the entry list the recursive functions iterate (a truthy non-object
value contributes its `Object.entries`). -/
def hostAgentTree (doc : Option Json) : JsonObj :=
  match doc with
  | some j =>
      (match jsProp j "agent" with
       | some a => if jsTruthy a then spreadFields a else []
       | none => [])
  | none => []

/-- `(ohMyOpencodeConfig as HierarchicalPreset) || {}` — the whole host
document as an entry list. -/
def hostWholeTree (doc : Option Json) : JsonObj :=
  match doc with
  | some j => if jsTruthy j then spreadFields j else []
  | none => []

/-- `buildPerformancePreset`: the host trees passed through unmodified, the
global model copied when truthy. -/
def buildPerformancePreset (env : InitEnv) : ModePreset :=
  let globalModel :=
    match env.opencodeDoc with
    | some j => jsProp j "model"
    | none => none
  { description := "High-performance models for complex tasks"
    model :=
      match globalModel with
      | some m => if jsTruthy m then some m else none
      | none => none
    opencode := hostAgentTree env.opencodeDoc
    ohMyOpencode := hostWholeTree env.ohMyDoc }

/-- `buildEconomyPreset`: the same trees with `applyEconomyModel` applied and
the top-level model set unconditionally. -/
def buildEconomyPreset (env : InitEnv) : ModePreset :=
  { description := "Cost-efficient free model for routine tasks"
    model := some (Json.str DEFAULT_ECONOMY_MODEL)
    opencode := applyEconomyModel (hostAgentTree env.opencodeDoc) DEFAULT_ECONOMY_MODEL
    ohMyOpencode := applyEconomyModel (hostWholeTree env.ohMyDoc) DEFAULT_ECONOMY_MODEL }

/-- What `initializeConfig` returned: the parsed content of an existing
plugin state file as-is, or a freshly created configuration. -/
inductive InitResult where
  | loaded (config : Json)
  | created (config : ModeSwitcherConfig)
  deriving DecidableEq

/-- The creation path of `initializeConfig`: build both presets, write the
plugin state file (an uncaught write failure propagates — there is no
try/catch in `initializeConfig`), and return the new configuration. -/
def initializeCreate (env : InitEnv) : List WriteEvent × Except String InitResult :=
  let cfg : ModeSwitcherConfig :=
    { currentMode := "performance"
      showToastOnStartup := true
      presets :=
        [("performance", buildPerformancePreset env),
         ("economy", buildEconomyPreset env)] }
  ([WriteEvent.pluginFile cfg],
   match env.savePluginResult with
   | Except.ok _ => Except.ok (InitResult.created cfg)
   | Except.error e => Except.error e)

/-- `initializeConfig` from `src/config/initializer.ts`: when the plugin
state file exists and loads to a truthy value it is returned as-is; in every
other case (missing file, or a load that returned `null`/a falsy value) the
initial configuration is built and saved. -/
def initializeConfigM (env : InitEnv) : List WriteEvent × Except String InitResult :=
  if env.pluginExists then
    match env.pluginLoad with
    | some j =>
        if jsTruthy j then ([], Except.ok (InitResult.loaded j))
        else initializeCreate env
    | none => initializeCreate env
  else initializeCreate env

/-! ### Mode manager (`src/modes/manager.ts`) -/

/-- The outcomes of the file primitives consumed by a `ModeManager`
operation: what the two host documents load to, and whether each of the
three writes succeeds (`Except.error` models `Bun.write` throwing). -/
structure ManagerEnv where
  opencodeDoc : Option Json
  ohMyDoc : Option Json
  saveOpencodeResult : Except String Unit
  saveOhMyResult : Except String Unit
  savePluginResult : Except String Unit

/-- `ModeManager.updateOpencodeConfig`: everything inside its try/catch is
total here, so the result is the status string plus the attempted write.
`"error: TypeError"` stands for the merge throwing inside the try block (its
exact host message is not modelled; no claim inspects it). -/
def updateOpencodeConfig (env : ManagerEnv) (globalModel : Option Json)
    (agentPresets : JsonObj) : String × List WriteEvent :=
  match env.opencodeDoc with
  | none => ("skipped (not found)", [])
  | some doc =>
      if !(jsTruthy doc) then ("skipped (not found)", [])
      else
        match doc with
        | Json.obj o =>
            let o1 :=
              match globalModel with
              | some m => if jsTruthy m then jsSet o "model" m else o
              | none => o
            let agentVal :=
              match jsGet o1 "agent" with
              | some a => if jsTruthy a then a else Json.obj []
              | none => Json.obj []
            let o2 := jsSet o1 "agent" agentVal
            (match agentVal with
             | Json.obj ag =>
                 (match deepMergeModel ag agentPresets with
                  | some ag' =>
                      let o3 := jsSet o2 "agent" (Json.obj ag')
                      (match env.saveOpencodeResult with
                       | Except.ok _ => ("updated", [WriteEvent.opencodeFile (Json.obj o3)])
                       | Except.error e =>
                           ("error: " ++ e, [WriteEvent.opencodeFile (Json.obj o3)]))
                  | none => ("error: TypeError", []))
             | _ =>
                 if hasObjEntry agentPresets then ("error: TypeError", [])
                 else
                   (match env.saveOpencodeResult with
                    | Except.ok _ => ("updated", [WriteEvent.opencodeFile (Json.obj o2)])
                    | Except.error e =>
                        ("error: " ++ e, [WriteEvent.opencodeFile (Json.obj o2)])))
        | _ => ("error: TypeError", [])

/-- `ModeManager.updateOhMyOpencodeConfig`, analogously. -/
def updateOhMyOpencodeConfig (env : ManagerEnv) (preset : JsonObj) :
    String × List WriteEvent :=
  match env.ohMyDoc with
  | none => ("skipped (not found)", [])
  | some doc =>
      if !(jsTruthy doc) then ("skipped (not found)", [])
      else
        match doc with
        | Json.obj o =>
            (match deepMergeModel o preset with
             | some o' =>
                 (match env.saveOhMyResult with
                  | Except.ok _ => ("updated", [WriteEvent.ohMyFile (Json.obj o')])
                  | Except.error e => ("error: " ++ e, [WriteEvent.ohMyFile (Json.obj o')]))
             | none => ("error: TypeError", []))
        | _ =>
            if hasObjEntry preset then ("error: TypeError", [])
            else
              (match env.saveOhMyResult with
               | Except.ok _ => ("updated", [WriteEvent.ohMyFile doc])
               | Except.error e => ("error: " ++ e, [WriteEvent.ohMyFile doc]))

/-- `ModeManager.switchMode` given a loaded configuration: the attempted
writes, and either the result text with the updated configuration or the
exception that escaped the method (the `savePluginConfig` call is not inside
any try/catch). The fire-and-forget toast is irrelevant to the claims. -/
def switchModeM (env : ManagerEnv) (config : ModeSwitcherConfig) (modeName : String) :
    List WriteEvent × Except String (String × ModeSwitcherConfig) :=
  match lookupPreset config.presets modeName with
  | none =>
      ([], Except.ok
        ("Mode \"" ++ modeName ++ "\" not found. Available modes: "
            ++ String.intercalate ", " (config.presets.map Prod.fst),
          config))
  | some preset =>
      let r1 := updateOpencodeConfig env preset.model preset.opencode
      let r2 := updateOhMyOpencodeConfig env preset.ohMyOpencode
      let config' := { config with currentMode := modeName }
      let writes := r1.2 ++ r2.2 ++ [WriteEvent.pluginFile config']
      match env.savePluginResult with
      | Except.error e => (writes, Except.error e)
      | Except.ok _ =>
          (writes, Except.ok (String.intercalate "\n"
            ["Switched to " ++ modeName ++ " mode",
             preset.description,
             "",
             "Results:",
             "  - opencode.json: " ++ r1.1,
             "  - oh-my-opencode.json: " ++ r2.1,
             "  - agent-mode-switcher.json: updated",
             "",
             "Note: Restart opencode to apply changes."], config'))

/-- `ModeManager.hasConfigDrift`: false when neither host document loads to
a truthy value; otherwise global-model check, then the two recursive drift
checks. -/
def hasConfigDriftM (env : ManagerEnv) (preset : ModePreset) : Bool :=
  let ocT := match env.opencodeDoc with | some j => jsTruthy j | none => false
  let omT := match env.ohMyDoc with | some j => jsTruthy j | none => false
  if !ocT && !omT then false
  else
    let globalDrift :=
      match preset.model with
      | some m =>
          if jsTruthy m then
            decide ((match env.opencodeDoc with
                     | some j => jsProp j "model"
                     | none => none) ≠ some m)
          else false
      | none => false
    if globalDrift then true
    else
      let agentDrift :=
        match (match env.opencodeDoc with
               | some j => jsProp j "agent"
               | none => none) with
        | some a => jsTruthy a && hasDriftRecursive a preset.opencode
        | none => false
      if agentDrift then true
      else
        match env.ohMyDoc with
        | some j => jsTruthy j && hasDriftRecursive j preset.ohMyOpencode
        | none => false

/-- `ModeManager.applyCurrentModeIfNeeded`: the attempted config-file writes
and whether the restart toast was fired. -/
def applyCurrentModeIfNeededM (env : ManagerEnv) (config : Option ModeSwitcherConfig) :
    List WriteEvent × Bool :=
  match config with
  | none => ([], false)
  | some cfg =>
      match lookupPreset cfg.presets cfg.currentMode with
      | none => ([], false)
      | some preset =>
          if hasConfigDriftM env preset then
            let r1 := updateOpencodeConfig env preset.model preset.opencode
            let r2 := updateOhMyOpencodeConfig env preset.ohMyOpencode
            (r1.2 ++ r2.2, true)
          else ([], false)

/-! ### Specification-side predicates used to state the claims -/

/-- A leaf of a hierarchical tree at a path: each intermediate step passes
through an object entry that is not itself a leaf, and the final step reaches
an object satisfying `isLeafNode`. This is what "a leaf path present in the
tree" means for the recursive merge/drift algorithms, which stop descending
at the first leaf. -/
inductive LeafAt : JsonObj → List String → JsonObj → Prop where
  | here {o : JsonObj} {k : String} {L : JsonObj} :
      jsGet o k = some (Json.obj L) → isLeafNode L = true → LeafAt o [k] L
  | deeper {o : JsonObj} {k : String} {B : JsonObj} {p : List String} {L : JsonObj} :
      jsGet o k = some (Json.obj B) → isLeafNode B = false → LeafAt B p L →
      LeafAt o (k :: p) L

/-- `q` is a proper prefix of `p`. -/
def isProperPre (q p : List String) : Prop :=
  ∃ k t, p = q ++ k :: t

mutual

/-- Does the tree contain a leaf (per `isLeafNode`) anywhere among its
object entries? -/
def hasLeafB : JsonObj → Bool
  | [] => false
  | (_, v) :: rest => hasLeafV v || hasLeafB rest

/-- Does the value contain a leaf? -/
def hasLeafV : Json → Bool
  | Json.obj vo => if isLeafNode vo then true else hasLeafB vo
  | _ => false

end

/-- A value from which no object is reachable by property reads: `null`,
booleans, numbers, and strings (whose only readable properties are
single-character strings and the numeric `length`). -/
def deadJs : Json → Bool
  | Json.obj _ => false
  | Json.arr _ => false
  | _ => true

/-- The expected leaf `L` is missing at path `p` of the actual tree, or some
field present in `L` differs from the same field of the actual node at `p`. -/
def mismatchAt (A : Json) (p : List String) (L : JsonObj) : Prop :=
  jsPathGet A p = none ∨
    ∃ a, jsPathGet A p = some a ∧ ∃ kv, kv ∈ L ∧ jsProp a kv.1 ≠ some kv.2

/-- The drift condition as the C2 claim states it: some leaf of the expected
tree is missing at the corresponding path of the actual tree, or some field
present in that expected leaf differs from the same field of the actual node
there. -/
def driftWitness (A : Json) (E : JsonObj) : Prop :=
  ∃ p L, LeafAt E p L ∧ mismatchAt A p L

/-- Descent through arbitrary property reads over reference-aware values. -/
def rPathGet : RJson → List String → Option RJson
  | j, [] => some j
  | j, k :: rest =>
      (match rProp j k with
       | some v => rPathGet v rest
       | none => none)

/-- A leaf of a reference-aware hierarchical tree at a path (mirror of
`LeafAt`; the identities of the objects along the path are existential). -/
inductive RLeafAt : RObj → List String → RObj → Prop where
  | here {o : RObj} {k : String} {i : Nat} {L : RObj} :
      rGet o k = some (RJson.obj i L) → isLeafNodeR L = true → RLeafAt o [k] L
  | deeper {o : RObj} {k : String} {i : Nat} {B : RObj} {p : List String} {L : RObj} :
      rGet o k = some (RJson.obj i B) → isLeafNodeR B = false → RLeafAt B p L →
      RLeafAt o (k :: p) L

mutual

/-- Does the reference-aware tree contain a leaf among its object entries? -/
def hasLeafBR : RObj → Bool
  | [] => false
  | (_, v) :: rest => hasLeafVR v || hasLeafBR rest

/-- Does the reference-aware value contain a leaf? -/
def hasLeafVR : RJson → Bool
  | RJson.obj _ vo => if isLeafNodeR vo then true else hasLeafBR vo
  | _ => false

end

/-- A reference-aware value from which no object is reachable by property
reads. -/
def deadR : RJson → Bool
  | RJson.obj _ _ => false
  | RJson.arr _ _ => false
  | _ => true

/-- The expected leaf `L` is missing at path `p` of the actual value, or
some field present in `L` is not JavaScript-strict-equal (`===`, i.e.
`refOf`-equal) to the same field of the actual node at `p`. -/
def mismatchAtR (A : RJson) (p : List String) (L : RObj) : Prop :=
  rPathGet A p = none ∨
    ∃ a, rPathGet A p = some a ∧
      ∃ kv, kv ∈ L ∧ (rProp a kv.1).map refOf ≠ some (refOf kv.2)

/-- The drift condition under reference semantics: some leaf of the expected
tree is missing at the corresponding path of the actual value, or some field
present in that expected leaf is not strict-equal to the same field of the
actual node there. -/
def driftWitnessR (A : RJson) (E : RObj) : Prop :=
  ∃ p L, RLeafAt E p L ∧ mismatchAtR A p L

/-- A node of the tree reached by descending only through object nodes that
have no `model` key (the nodes `applyEconomyModel` recurses through). -/
inductive EcoReach : JsonObj → List String → Json → Prop where
  | here {o : JsonObj} {k : String} {v : Json} :
      jsGet o k = some v → EcoReach o [k] v
  | deeper {o : JsonObj} {k : String} {vo : JsonObj} {p : List String} {v : Json} :
      jsGet o k = some (Json.obj vo) → (jsGet vo "model").isSome = false →
      EcoReach vo p v → EcoReach o (k :: p) v

/-! ### Concrete fixtures for counterexamples and witnesses -/

/-- A preset whose leaf carries an object-valued extra field overlapping a
nested object of the target (C1 counterexample input). -/
def c1preset : JsonObj :=
  [("a", Json.obj [("model", Json.str "x"), ("sub", Json.obj [("q", Json.num "1")])])]

def c1target : JsonObj :=
  [("a", Json.obj [("sub", Json.obj [("z", Json.num "9")])])]

def c1result : JsonObj :=
  [("a", Json.obj [("sub", Json.obj [("q", Json.num "1")]), ("model", Json.str "x")])]

def presetEmpty : ModePreset :=
  { description := "d", model := none, opencode := [], ohMyOpencode := [] }

/-- Two-preset configuration used for the invalid-mode scenario. -/
def cfgTwo : ModeSwitcherConfig :=
  { currentMode := "performance"
    showToastOnStartup := true
    presets :=
      [("performance", { presetEmpty with description := "High-performance models for complex tasks" }),
       ("economy", { presetEmpty with description := "Cost-efficient free model for routine tasks" })] }

/-- Environment in which every load finds nothing and every write succeeds. -/
def envQuiet : ManagerEnv :=
  { opencodeDoc := none, ohMyDoc := none
    saveOpencodeResult := Except.ok (), saveOhMyResult := Except.ok ()
    savePluginResult := Except.ok () }

/-- Environment in which writing the plugin state file fails. -/
def envPluginWriteFails : ManagerEnv :=
  { envQuiet with savePluginResult := Except.error "EACCES: permission denied" }

/-- Plugin state file exists but its content fails to load/parse
(`loadPluginConfig` returns null), all other loads empty, write succeeds. -/
def envExistingUnparseable : InitEnv :=
  { pluginExists := true, pluginLoad := none, opencodeDoc := none, ohMyDoc := none
    savePluginResult := Except.ok () }

/-- The C9 scenario tree
`{agent: {build: {model: "m1", temp: 0.5}, plan: {model: "m2", variant: "fast"}}}`. -/
def c9tree : JsonObj :=
  [("agent", Json.obj
     [("build", Json.obj [("model", Json.str "m1"), ("temp", Json.num "0.5")]),
      ("plan", Json.obj [("model", Json.str "m2"), ("variant", Json.str "fast")])])]

/-- A tree whose only object node has a non-string `model` field — not a
leaf per the 4.1 predicate (C7 counterexample input). -/
def c7tree : JsonObj := [("a", Json.obj [("model", Json.num "5")])]

/-- A one-leaf tree for the C7 witness. -/
def c7leafTree : JsonObj :=
  [("x", Json.obj [("model", Json.str "m"), ("t", Json.num "1")])]

/-- A well-formed plugin state file content. -/
def c6json : Json :=
  Json.obj [("currentMode", Json.str "performance"), ("showToastOnStartup", Json.bool true)]

/-- Plugin state file exists and parses to `c6json`. -/
def envExistingLoaded : InitEnv :=
  { pluginExists := true, pluginLoad := some c6json, opencodeDoc := none, ohMyDoc := none
    savePluginResult := Except.ok () }

/-- Actual document for the C2 counterexample: parsed afresh, so its nested
`opts` object (identity 2) is a heap object of its own. -/
def cexRA : RJson :=
  RJson.obj 0 [("b", RJson.obj 1
    [("model", RJson.str "m"), ("opts", RJson.obj 2 [("x", RJson.num "1")])])]

/-- Expected preset for the C2 counterexample: structurally identical to the
content of `cexRA`, but its `opts` object is a distinct heap object
(identity 12), as it is whenever actual and expected were parsed or built
separately. -/
def cexRE : RObj :=
  [("b", RJson.obj 11
    [("model", RJson.str "m"), ("opts", RJson.obj 12 [("x", RJson.num "1")])])]

/-- One-leaf reference-aware expected tree for the C2 witness. -/
def c2refE : RObj := [("b", RJson.obj 1 [("model", RJson.str "m")])]

/-- A one-field JSON document, used as the data tree of the save fixtures. -/
def dataObjOne : Json := Json.obj [("a", Json.num "1")]

/-- A patch environment whose parser always yields `dataObjOne` (the
behaviour of `jsonc-parser` on the fixture texts below) and whose
`modify`/`applyEdits` pipeline leaves the text unchanged. -/
def envObjOne : PatchEnv :=
  { parseJsonc := fun _ => dataObjOne, modifyApply := fun c _ _ => c }

/-- Cached original text carrying a line comment: it parses (ignoring the
comment) to `dataObjOne`. -/
def c3text : String := "\x7b \x22a\x22: 1 \x7d // keep"

/-- The pretty-printed form of `dataObjOne`. -/
def c8text : String := "\x7b\n  \x22a\x22: 1\n\x7d"

/-- A patch environment whose parser always yields the number `5` (the
behaviour of `jsonc-parser` on `"5 //c"`). -/
def envNumFive : PatchEnv :=
  { parseJsonc := fun _ => Json.num "5", modifyApply := fun c _ _ => c }

/-! ## Theorems -/

/-! ### Association-list lemmas -/

theorem jsGet_set_self (o : JsonObj) (k : String) (v : Json) :
    jsGet (jsSet o k v) k = some v := by
  induction o with
  | nil => simp [jsSet, jsGet]
  | cons hd tl ih =>
    cases hd with
    | mk k' v' =>
      by_cases h : k' = k
      · simp [jsSet, jsGet, h]
      · simp [jsSet, jsGet, h, ih]

theorem jsGet_set_other (o : JsonObj) (k : String) (v : Json) (f : String) (hf : f ≠ k) :
    jsGet (jsSet o k v) f = jsGet o f := by
  have hkf : ¬ (k = f) := fun h => hf h.symm
  induction o with
  | nil => simp [jsSet, jsGet, hkf]
  | cons hd tl ih =>
    cases hd with
    | mk k' v' =>
      by_cases h : k' = k
      · subst h
        simp [jsSet, jsGet, hkf]
      · by_cases h2 : k' = f
        · simp [jsSet, jsGet, h, h2, hf]
        · simp [jsSet, jsGet, h, h2, ih]

theorem jsGet_mem {o : JsonObj} {k : String} {v : Json} (h : jsGet o k = some v) :
    (k, v) ∈ o := by
  induction o with
  | nil => simp [jsGet] at h
  | cons hd tl ih =>
    cases hd with
    | mk k' v' =>
      simp only [jsGet] at h
      by_cases hk : k' = k
      · rw [if_pos hk] at h
        cases h
        subst hk
        exact List.mem_cons_self _ _
      · rw [if_neg hk] at h
        exact List.mem_cons_of_mem _ (ih h)

theorem jsGet_eq_none_iff {o : JsonObj} {k : String} :
    jsGet o k = none ↔ k ∉ o.map Prod.fst := by
  induction o with
  | nil => simp [jsGet]
  | cons hd tl ih =>
    cases hd with
    | mk k' v' =>
      by_cases hk : k' = k
      · subst hk
        simp [jsGet]
      · simp [jsGet, hk, ih, Ne.symm hk]

theorem jsGet_of_mem_nodup {o : JsonObj} {k : String} {v : Json}
    (hn : (o.map Prod.fst).Nodup) (hm : (k, v) ∈ o) : jsGet o k = some v := by
  induction o with
  | nil => simp at hm
  | cons hd tl ih =>
    cases hd with
    | mk k' v' =>
      simp only [List.map_cons, List.nodup_cons] at hn
      rcases List.mem_cons.mp hm with h | h
      · cases h
        simp [jsGet]
      · have hk : k' ≠ k := by
          intro he
          subst he
          exact hn.1 (List.mem_map.mpr ⟨(k', v), h, rfl⟩)
        simp only [jsGet, if_neg hk]
        exact ih hn.2 h

theorem jsGet_isSome_of_mem_keys {o : JsonObj} {k : String}
    (h : k ∈ o.map Prod.fst) : ∃ v, jsGet o k = some v := by
  cases hg : jsGet o k with
  | none => exact absurd (jsGet_eq_none_iff.mp hg) (by simp [h])
  | some v => exact ⟨v, rfl⟩

theorem jsGet_spread2 (a b : JsonObj) (f : String)
    (hb : (b.map Prod.fst).Nodup) :
    jsGet (jsSpread2 a b) f =
      (match jsGet b f with
       | some w => some w
       | none => jsGet a f) := by
  induction b generalizing a with
  | nil => simp [jsSpread2, jsGet]
  | cons hd tl ih =>
    cases hd with
    | mk k v =>
      simp only [List.map_cons, List.nodup_cons] at hb
      have hstep : jsSpread2 a ((k, v) :: tl) = jsSpread2 (jsSet a k v) tl := rfl
      rw [hstep, ih _ hb.2]
      by_cases hk : k = f
      · subst hk
        have : jsGet tl k = none := by
          rw [jsGet_eq_none_iff]
          exact fun hmem => hb.1 hmem
        simp [jsGet, this, jsGet_set_self]
      · simp [jsGet, hk, jsGet_set_other a k v f (Ne.symm hk)]

theorem wfObj_forall {fs : JsonObj} (h : wfObj fs = true) :
    ∀ p ∈ fs, wfJson p.2 = true := by
  induction fs with
  | nil => simp
  | cons hd tl ih =>
    simp only [wfObj, Bool.and_eq_true] at h
    intro p hp
    rcases List.mem_cons.mp hp with he | he
    · subst he; exact h.1
    · exact ih h.2 p he

theorem wfJson_obj_parts {fs : JsonObj} (h : wfJson (Json.obj fs) = true) :
    (fs.map Prod.fst).Nodup ∧ wfObj fs = true := by
  simp only [wfJson, Bool.and_eq_true, decide_eq_true_eq] at h
  exact h

/-! ### C7: the economy preset derivation -/

theorem applyEconomyModel_get (o : JsonObj) (em : String) (k : String) :
    jsGet (applyEconomyModel o em) k
      = (jsGet o k).map (fun v => applyEconomyValue v em) := by
  induction o with
  | nil => simp [applyEconomyModel, jsGet]
  | cons hd tl ih =>
    cases hd with
    | mk k' v' =>
      by_cases h : k' = k
      · simp [applyEconomyModel, jsGet, h]
      · simp [applyEconomyModel, jsGet, h, ih]

/-- C7 (amended): `applyEconomyModel` overwrites the `model` field — in
place, every other field untouched — of every object node that has a
`model` key of any type (not only the 4.1 string-typed leaves); object nodes
without a `model` key keep their structure with the rule applied recursively;
non-object values reached through model-free objects are copied unchanged;
and the economy preset built by `buildEconomyPreset` applies this to both
host trees and sets its top-level model unconditionally to
`DEFAULT_ECONOMY_MODEL`. -/
theorem c7_economy_model (em : String) :
    (∀ o p v, EcoReach o p v →
      ((∀ vo, v = Json.obj vo → (jsGet vo "model").isSome = true →
          getPath (Json.obj (applyEconomyModel o em)) p
            = some (Json.obj (jsSet vo "model" (Json.str em)))
          ∧ ∀ f, f ≠ "model" →
              jsGet (jsSet vo "model" (Json.str em)) f = jsGet vo f)
       ∧ (∀ vo, v = Json.obj vo → (jsGet vo "model").isSome = false →
          getPath (Json.obj (applyEconomyModel o em)) p
            = some (Json.obj (applyEconomyModel vo em)))
       ∧ (isObject v = false →
          getPath (Json.obj (applyEconomyModel o em)) p = some v)))
    ∧ (∀ env, (buildEconomyPreset env).model = some (Json.str DEFAULT_ECONOMY_MODEL)
        ∧ (buildEconomyPreset env).opencode
            = applyEconomyModel (hostAgentTree env.opencodeDoc) DEFAULT_ECONOMY_MODEL
        ∧ (buildEconomyPreset env).ohMyOpencode
            = applyEconomyModel (hostWholeTree env.ohMyDoc) DEFAULT_ECONOMY_MODEL) := by
  constructor
  · intro o p v hreach
    induction hreach with
    | here hget =>
      rename_i o' k' v'
      have hpath : getPath (Json.obj (applyEconomyModel o' em)) [k']
          = some (applyEconomyValue v' em) := by
        simp [getPath, applyEconomyModel_get, hget]
      refine ⟨?_, ?_, ?_⟩
      · intro vo hv hm
        subst hv
        constructor
        · rw [hpath]
          simp [applyEconomyValue, hm]
        · intro f hf
          exact jsGet_set_other vo "model" (Json.str em) f hf
      · intro vo hv hm
        subst hv
        rw [hpath]
        simp [applyEconomyValue, hm]
      · intro hno
        rw [hpath]
        cases v' <;> simp_all [applyEconomyValue, isObject]
    | deeper hget hnom _ ih =>
      rename_i o' k' vo' p' v' hr
      have hstep : getPath (Json.obj (applyEconomyModel o' em)) (k' :: p')
          = getPath (Json.obj (applyEconomyModel vo' em)) p' := by
        simp [getPath, applyEconomyModel_get, hget, applyEconomyValue, hnom]
      refine ⟨?_, ?_, ?_⟩
      · intro vo hv hm
        rw [hstep]
        exact ih.1 vo hv hm
      · intro vo hv hm
        rw [hstep]
        exact ih.2.1 vo hv hm
      · intro hno
        rw [hstep]
        exact ih.2.2 hno
  · intro env
    exact ⟨rfl, rfl, rfl⟩

/-- C7 counterexample to the claim as stated: the source keys on
`'model' in value`, not on the 4.1 predicate, so a node whose `model` field
is the number `5` — not a 4.1 leaf — still gets its model overwritten
instead of being left unchanged. -/
theorem c7_non41_leaf_rewritten :
    isLeafNode [("model", Json.num "5")] = false
    ∧ applyEconomyModel c7tree DEFAULT_ECONOMY_MODEL
        = [("a", Json.obj [("model", Json.str DEFAULT_ECONOMY_MODEL)])]
    ∧ applyEconomyModel c7tree DEFAULT_ECONOMY_MODEL ≠ c7tree := by
  refine ⟨by decide, by decide, by decide⟩

/-- Witness applying `c7_economy_model` at a concrete one-leaf tree. -/
theorem c7_economy_model_witness :
    getPath (Json.obj (applyEconomyModel c7leafTree "em")) ["x"]
      = some (Json.obj (jsSet [("model", Json.str "m"), ("t", Json.num "1")]
          "model" (Json.str "em"))) :=
  (((c7_economy_model "em").1 c7leafTree ["x"]
      (Json.obj [("model", Json.str "m"), ("t", Json.num "1")])
      (EcoReach.here (by rfl))).1
    [("model", Json.str "m"), ("t", Json.num "1")] rfl (by decide)).1

/-! ### C1: the recursive merge -/

/-- An entry step never touches the value stored under a different key. -/
theorem deepMergeEntry_get_other {target : JsonObj} {k : String} {v : Json} {t' : JsonObj}
    (h : deepMergeEntry target k v = some t') (f : String) (hf : f ≠ k) :
    jsGet t' f = jsGet target f := by
  cases v with
  | obj vo =>
    by_cases hleaf : isLeafNode vo
    · simp only [deepMergeEntry, if_pos hleaf, Option.some_inj] at h
      subst h
      exact jsGet_set_other _ _ _ _ hf
    · simp only [deepMergeEntry, if_neg hleaf] at h
      cases hgt : jsGet target k with
      | none =>
        rw [hgt] at h
        rcases Option.map_eq_some'.mp h with ⟨o', _, rfl⟩
        exact jsGet_set_other _ _ _ _ hf
      | some u =>
        rw [hgt] at h
        cases u with
        | obj o =>
          rcases Option.map_eq_some'.mp h with ⟨o', _, rfl⟩
          exact jsGet_set_other _ _ _ _ hf
        | null =>
          rcases Option.map_eq_some'.mp h with ⟨o', _, rfl⟩
          exact jsGet_set_other _ _ _ _ hf
        | bool b =>
          by_cases ho : hasObjEntry vo = true
          · simp [ho] at h
          · simp only [Bool.not_eq_true] at ho
            simp only [ho, Bool.false_eq_true, if_false, Option.some_inj] at h
            subst h
            exact jsGet_set_other _ _ _ _ hf
        | num s =>
          by_cases ho : hasObjEntry vo = true
          · simp [ho] at h
          · simp only [Bool.not_eq_true] at ho
            simp only [ho, Bool.false_eq_true, if_false, Option.some_inj] at h
            subst h
            exact jsGet_set_other _ _ _ _ hf
        | str s =>
          by_cases ho : hasObjEntry vo = true
          · simp [ho] at h
          · simp only [Bool.not_eq_true] at ho
            simp only [ho, Bool.false_eq_true, if_false, Option.some_inj] at h
            subst h
            exact jsGet_set_other _ _ _ _ hf
        | arr xs =>
          by_cases ho : hasObjEntry vo = true
          · simp [ho] at h
          · simp only [Bool.not_eq_true] at ho
            simp only [ho, Bool.false_eq_true, if_false, Option.some_inj] at h
            subst h
            exact jsGet_set_other _ _ _ _ hf
  | null => cases h; rfl
  | bool b => cases h; rfl
  | num s => cases h; rfl
  | str s => cases h; rfl
  | arr xs => cases h; rfl

/-- Keys absent from the preset are never touched by the merge. -/
theorem deepMergeModel_get_absent {P : JsonObj} :
    ∀ {target R : JsonObj}, deepMergeModel target P = some R →
      ∀ f, f ∉ P.map Prod.fst → jsGet R f = jsGet target f := by
  induction P with
  | nil =>
    intro target R h f _
    cases h
    rfl
  | cons hd tl ih =>
    intro target R h f hf
    cases hd with
    | mk k0 v0 =>
      simp only [List.map_cons, List.mem_cons] at hf
      push_neg at hf
      simp only [deepMergeModel] at h
      cases he : deepMergeEntry target k0 v0 with
      | none => rw [he] at h; cases h
      | some t1 =>
        rw [he] at h
        calc jsGet R f = jsGet t1 f := ih h f (by simpa using hf.2)
          _ = jsGet target f := deepMergeEntry_get_other he f hf.1

theorem deepMergeEntry_leaf (target : JsonObj) (k : String) {vo : JsonObj}
    (hleaf : isLeafNode vo = true) :
    deepMergeEntry target k (Json.obj vo)
      = some (jsSet target k (Json.obj (jsSpread2 (mergeExisting (jsGet target k)) vo))) := by
  simp [deepMergeEntry, hleaf]

theorem deepMergeEntry_branch_obj (target : JsonObj) (k : String) {vo o : JsonObj}
    (hbr : isLeafNode vo = false) (hget : jsGet target k = some (Json.obj o)) :
    deepMergeEntry target k (Json.obj vo)
      = (deepMergeModel o vo).map (fun o' => jsSet target k (Json.obj o')) := by
  simp [deepMergeEntry, hbr, hget]

theorem deepMergeEntry_branch_none (target : JsonObj) (k : String) {vo : JsonObj}
    (hbr : isLeafNode vo = false) (hget : jsGet target k = none) :
    deepMergeEntry target k (Json.obj vo)
      = (deepMergeModel [] vo).map (fun o' => jsSet target k (Json.obj o')) := by
  simp [deepMergeEntry, hbr, hget]

theorem deepMergeEntry_branch_null (target : JsonObj) (k : String) {vo : JsonObj}
    (hbr : isLeafNode vo = false) (hget : jsGet target k = some Json.null) :
    deepMergeEntry target k (Json.obj vo)
      = (deepMergeModel [] vo).map (fun o' => jsSet target k (Json.obj o')) := by
  simp [deepMergeEntry, hbr, hget]

/-- An entry step reads the target only through `target[key]`: with the same
stored value, it succeeds on one target iff on the other, with the same
resulting value under `key`. -/
theorem deepMergeEntry_congr {target target' : JsonObj} {k : String} {v : Json}
    (hsame : jsGet target k = jsGet target' k) {t' : JsonObj}
    (h : deepMergeEntry target k v = some t') :
    ∃ t'', deepMergeEntry target' k v = some t'' ∧ jsGet t'' k = jsGet t' k := by
  cases v with
  | obj vo =>
    by_cases hleaf : isLeafNode vo
    · rw [deepMergeEntry_leaf target k hleaf, Option.some_inj] at h
      subst h
      refine ⟨_, deepMergeEntry_leaf target' k hleaf, ?_⟩
      rw [jsGet_set_self, jsGet_set_self, hsame]
    · have hbr : isLeafNode vo = false := by simpa using hleaf
      cases hgt : jsGet target k with
      | none =>
        rw [deepMergeEntry_branch_none target k hbr hgt] at h
        rcases Option.map_eq_some'.mp h with ⟨o', ho', rfl⟩
        refine ⟨jsSet target' k (Json.obj o'), ?_, ?_⟩
        · rw [deepMergeEntry_branch_none target' k hbr (hsame ▸ hgt), ho']
          rfl
        · rw [jsGet_set_self, jsGet_set_self]
      | some u =>
        cases u with
        | obj o =>
          rw [deepMergeEntry_branch_obj target k hbr hgt] at h
          rcases Option.map_eq_some'.mp h with ⟨o', ho', rfl⟩
          refine ⟨jsSet target' k (Json.obj o'), ?_, ?_⟩
          · rw [deepMergeEntry_branch_obj target' k hbr (hsame ▸ hgt), ho']
            rfl
          · rw [jsGet_set_self, jsGet_set_self]
        | null =>
          rw [deepMergeEntry_branch_null target k hbr hgt] at h
          rcases Option.map_eq_some'.mp h with ⟨o', ho', rfl⟩
          refine ⟨jsSet target' k (Json.obj o'), ?_, ?_⟩
          · rw [deepMergeEntry_branch_null target' k hbr (hsame ▸ hgt), ho']
            rfl
          · rw [jsGet_set_self, jsGet_set_self]
        | bool b =>
          simp only [deepMergeEntry, if_neg hleaf, hgt] at h
          by_cases ho : hasObjEntry vo = true
          · simp [ho] at h
          · simp only [Bool.not_eq_true] at ho
            simp only [ho, Bool.false_eq_true, if_false, Option.some_inj] at h
            subst h
            refine ⟨jsSet target' k (Json.bool b), ?_, ?_⟩
            · simp only [deepMergeEntry, if_neg hleaf, ← hsame, hgt, ho, Bool.false_eq_true,
                if_false]
            · rw [jsGet_set_self, jsGet_set_self]
        | num s =>
          simp only [deepMergeEntry, if_neg hleaf, hgt] at h
          by_cases ho : hasObjEntry vo = true
          · simp [ho] at h
          · simp only [Bool.not_eq_true] at ho
            simp only [ho, Bool.false_eq_true, if_false, Option.some_inj] at h
            subst h
            refine ⟨jsSet target' k (Json.num s), ?_, ?_⟩
            · simp only [deepMergeEntry, if_neg hleaf, ← hsame, hgt, ho, Bool.false_eq_true,
                if_false]
            · rw [jsGet_set_self, jsGet_set_self]
        | str s =>
          simp only [deepMergeEntry, if_neg hleaf, hgt] at h
          by_cases ho : hasObjEntry vo = true
          · simp [ho] at h
          · simp only [Bool.not_eq_true] at ho
            simp only [ho, Bool.false_eq_true, if_false, Option.some_inj] at h
            subst h
            refine ⟨jsSet target' k (Json.str s), ?_, ?_⟩
            · simp only [deepMergeEntry, if_neg hleaf, ← hsame, hgt, ho, Bool.false_eq_true,
                if_false]
            · rw [jsGet_set_self, jsGet_set_self]
        | arr xs =>
          simp only [deepMergeEntry, if_neg hleaf, hgt] at h
          by_cases ho : hasObjEntry vo = true
          · simp [ho] at h
          · simp only [Bool.not_eq_true] at ho
            simp only [ho, Bool.false_eq_true, if_false, Option.some_inj] at h
            subst h
            refine ⟨jsSet target' k (Json.arr xs), ?_, ?_⟩
            · simp only [deepMergeEntry, if_neg hleaf, ← hsame, hgt, ho, Bool.false_eq_true,
                if_false]
            · rw [jsGet_set_self, jsGet_set_self]
  | null => cases h; exact ⟨target', rfl, hsame.symm⟩
  | bool b => cases h; exact ⟨target', rfl, hsame.symm⟩
  | num s => cases h; exact ⟨target', rfl, hsame.symm⟩
  | str s => cases h; exact ⟨target', rfl, hsame.symm⟩
  | arr xs => cases h; exact ⟨target', rfl, hsame.symm⟩

/-- Per-key description of a successful merge under distinct preset keys:
the final value under each preset key is the one produced by the entry step
run against the original target. -/
theorem deepMergeModel_get_present {P : JsonObj} (hP : (P.map Prod.fst).Nodup) :
    ∀ {target R : JsonObj}, deepMergeModel target P = some R →
      ∀ k v, jsGet P k = some v →
        ∃ t', deepMergeEntry target k v = some t' ∧ jsGet R k = jsGet t' k := by
  induction P with
  | nil =>
    intro target R _ k v hg
    simp [jsGet] at hg
  | cons hd tl ih =>
    intro target R h k v hg
    cases hd with
    | mk k0 v0 =>
      simp only [List.map_cons, List.nodup_cons] at hP
      simp only [deepMergeModel] at h
      cases he : deepMergeEntry target k0 v0 with
      | none => rw [he] at h; cases h
      | some t1 =>
        rw [he] at h
        by_cases hk : k0 = k
        · subst hk
          have hg' : v0 = v := by simpa [jsGet] using hg
          subst hg'
          refine ⟨t1, he, ?_⟩
          exact deepMergeModel_get_absent h k0 (by simpa using hP.1)
        · simp only [jsGet, if_neg hk] at hg
          rcases ih hP.2 h k v hg with ⟨t2, he2, hR⟩
          have hsame : jsGet t1 k = jsGet target k :=
            deepMergeEntry_get_other he k (fun hh => hk hh.symm)
          rcases deepMergeEntry_congr hsame he2 with ⟨t3, he3, hK⟩
          exact ⟨t3, he3, by rw [hR, ← hK]⟩

theorem getPath_cons_some {o : JsonObj} {k : String} {v : Json}
    (h : jsGet o k = some v) (p : List String) :
    getPath (Json.obj o) (k :: p) = getPath v p := by
  simp [getPath, h]

theorem getPath_cons_none {o : JsonObj} {k : String}
    (h : jsGet o k = none) (p : List String) :
    getPath (Json.obj o) (k :: p) = none := by
  simp [getPath, h]

theorem LeafAt_shape {B : JsonObj} {p : List String} {L : JsonObj} (h : LeafAt B p L) :
    ∃ k t vo, p = k :: t ∧ jsGet B k = some (Json.obj vo) := by
  cases h with
  | here hget _ => exact ⟨_, [], _, rfl, hget⟩
  | deeper hget _ _ => exact ⟨_, _, _, rfl, hget⟩

theorem hasObjEntry_of_get {B : JsonObj} {k : String} {vo : JsonObj}
    (h : jsGet B k = some (Json.obj vo)) : hasObjEntry B = true := by
  unfold hasObjEntry
  exact List.any_eq_true.mpr ⟨(k, Json.obj vo), jsGet_mem h, by simp [isObject]⟩

theorem wf_of_LeafAt {P : JsonObj} {p : List String} {L : JsonObj}
    (hl : LeafAt P p L) (hw : wfJson (Json.obj P) = true) :
    wfJson (Json.obj L) = true := by
  induction hl with
  | here hget _ =>
    exact wfObj_forall (wfJson_obj_parts hw).2 _ (jsGet_mem hget)
  | deeper hget _ _ ih =>
    exact ih (wfObj_forall (wfJson_obj_parts hw).2 _ (jsGet_mem hget))

theorem exists_getPath_singleton {R : JsonObj} {k : String} {v : Json}
    (h : jsGet R k = some v) :
    ∃ w', getPath (Json.obj R) [k] = some w' :=
  ⟨v, by rw [getPath_cons_some h]; simp [getPath]⟩

/-- Part 1 of C1: at every leaf path of the preset, the merged target holds
the spread overlay of the preset leaf over the prior target object (or over
nothing when the slot was absent). -/
theorem deepMerge_leafPath {P : JsonObj} {p : List String} {L : JsonObj}
    (hl : LeafAt P p L) :
    ∀ {target R : JsonObj}, wfJson (Json.obj P) = true →
      deepMergeModel target P = some R →
      ((∀ o, getPath (Json.obj target) p = some (Json.obj o) →
          getPath (Json.obj R) p = some (Json.obj (jsSpread2 o L)))
       ∧ (getPath (Json.obj target) p = none →
          getPath (Json.obj R) p = some (Json.obj (jsSpread2 [] L)))) := by
  induction hl with
  | here hget hleaf =>
    rename_i P' k L'
    intro target R hw hm
    have hn := (wfJson_obj_parts hw).1
    rcases deepMergeModel_get_present hn hm k _ hget with ⟨t', he, hRk⟩
    rw [deepMergeEntry_leaf target k hleaf, Option.some_inj] at he
    subst he
    rw [jsGet_set_self] at hRk
    constructor
    · intro o hPath
      have hgt : jsGet target k = some (Json.obj o) := by
        cases hgt : jsGet target k with
        | none => simp [getPath, hgt] at hPath
        | some u => simpa [getPath, hgt] using hPath
      rw [hgt] at hRk
      simp only [mergeExisting, spreadFields] at hRk
      rw [getPath_cons_some hRk]
      rfl
    · intro hPath
      have hgt : jsGet target k = none := by
        cases hgt : jsGet target k with
        | none => rfl
        | some u => simp [getPath, hgt] at hPath
      rw [hgt] at hRk
      simp only [mergeExisting] at hRk
      rw [getPath_cons_some hRk]
      rfl
  | deeper hget hbr hsub ih =>
    rename_i P' k B p' L'
    intro target R hw hm
    have hn := (wfJson_obj_parts hw).1
    have hwB : wfJson (Json.obj B) = true :=
      wfObj_forall (wfJson_obj_parts hw).2 _ (jsGet_mem hget)
    rcases deepMergeModel_get_present hn hm k _ hget with ⟨t', he, hRk⟩
    rcases LeafAt_shape hsub with ⟨k2, t2, vo2, hp', hB2⟩
    cases hgt : jsGet target k with
    | none =>
      rw [deepMergeEntry_branch_none target k hbr hgt] at he
      rcases Option.map_eq_some'.mp he with ⟨o', hmo, rfl⟩
      rw [jsGet_set_self] at hRk
      have hempty : getPath (Json.obj ([] : JsonObj)) p' = none := by
        subst hp'; simp [getPath, jsGet]
      have hrec := (ih hwB hmo).2 hempty
      constructor
      · intro o hPath
        simp [getPath, hgt] at hPath
      · intro _
        rw [getPath_cons_some hRk]
        exact hrec
    | some u =>
      cases u with
      | obj o2 =>
        rw [deepMergeEntry_branch_obj target k hbr hgt] at he
        rcases Option.map_eq_some'.mp he with ⟨o', hmo, rfl⟩
        rw [jsGet_set_self] at hRk
        rcases ih hwB hmo with ⟨ihA, ihB⟩
        constructor
        · intro o hPath
          have hP2 : getPath (Json.obj o2) p' = some (Json.obj o) := by
            simpa [getPath, hgt] using hPath
          rw [getPath_cons_some hRk]
          exact ihA o hP2
        · intro hPath
          have hP2 : getPath (Json.obj o2) p' = none := by
            simpa [getPath, hgt] using hPath
          rw [getPath_cons_some hRk]
          exact ihB hP2
      | null =>
        rw [deepMergeEntry_branch_null target k hbr hgt] at he
        rcases Option.map_eq_some'.mp he with ⟨o', hmo, rfl⟩
        rw [jsGet_set_self] at hRk
        have hempty : getPath (Json.obj ([] : JsonObj)) p' = none := by
          subst hp'; simp [getPath, jsGet]
        have hrec := (ih hwB hmo).2 hempty
        constructor
        · intro o hPath
          subst hp'
          simp [getPath, hgt] at hPath
        · intro _
          rw [getPath_cons_some hRk]
          exact hrec
      | bool b =>
        have hobj : hasObjEntry B = true := hasObjEntry_of_get hB2
        simp [deepMergeEntry, hbr, hgt, hobj] at he
      | num s =>
        have hobj : hasObjEntry B = true := hasObjEntry_of_get hB2
        simp [deepMergeEntry, hbr, hgt, hobj] at he
      | str s =>
        have hobj : hasObjEntry B = true := hasObjEntry_of_get hB2
        simp [deepMergeEntry, hbr, hgt, hobj] at he
      | arr xs =>
        have hobj : hasObjEntry B = true := hasObjEntry_of_get hB2
        simp [deepMergeEntry, hbr, hgt, hobj] at he

/-- Part 2 of C1: a path present in the target, absent from the preset and
not extending any preset leaf path keeps its exact prior value. -/
theorem deepMerge_untouchedPath :
    ∀ (p : List String) {P target R : JsonObj} {w : Json},
      wfJson (Json.obj P) = true →
      deepMergeModel target P = some R →
      getPath (Json.obj target) p = some w →
      getPath (Json.obj P) p = none →
      (∀ q L, LeafAt P q L → ¬ isProperPre q p) →
      getPath (Json.obj R) p = some w := by
  intro p
  induction p with
  | nil =>
    intro P target R w _ _ _ hPn _
    simp [getPath] at hPn
  | cons k p' ih =>
    intro P target R w hw hm hT hPn havoid
    cases hgt : jsGet target k with
    | none => simp [getPath, hgt] at hT
    | some u =>
      have hT' : getPath u p' = some w := by simpa [getPath, hgt] using hT
      cases hPk : jsGet P k with
      | none =>
        have hRk : jsGet R k = some u := by
          rw [deepMergeModel_get_absent hm k (jsGet_eq_none_iff.mp hPk), hgt]
        rw [getPath_cons_some hRk]
        exact hT'
      | some v0 =>
        have hn := (wfJson_obj_parts hw).1
        rcases deepMergeModel_get_present hn hm k v0 hPk with ⟨t', he, hRk⟩
        cases v0 with
        | obj vo =>
          by_cases hleaf : isLeafNode vo = true
          · cases p' with
            | nil => simp [getPath, hPk] at hPn
            | cons k2 t =>
              exact absurd ⟨k2, t, rfl⟩ (havoid [k] vo (LeafAt.here hPk hleaf))
          · have hbr : isLeafNode vo = false := by simpa using hleaf
            cases p' with
            | nil => simp [getPath, hPk] at hPn
            | cons k2 t =>
              have hPn' : getPath (Json.obj vo) (k2 :: t) = none := by
                simpa [getPath, hPk] using hPn
              cases u with
              | obj o2 =>
                rw [deepMergeEntry_branch_obj target k hbr hgt] at he
                rcases Option.map_eq_some'.mp he with ⟨o', hmo, rfl⟩
                rw [jsGet_set_self] at hRk
                have hwvo : wfJson (Json.obj vo) = true :=
                  wfObj_forall (wfJson_obj_parts hw).2 _ (jsGet_mem hPk)
                have havoid' : ∀ q L, LeafAt vo q L → ¬ isProperPre q (k2 :: t) := by
                  intro q L hq hpre
                  rcases hpre with ⟨k3, t3, heq⟩
                  refine havoid (k :: q) L (LeafAt.deeper hPk hbr hq) ⟨k3, t3, ?_⟩
                  rw [List.cons_append]
                  exact congrArg (List.cons k) heq
                have hfin := ih hwvo hmo hT' hPn' havoid'
                rw [getPath_cons_some hRk]
                exact hfin
              | null => simp [getPath] at hT'
              | bool b => simp [getPath] at hT'
              | num s => simp [getPath] at hT'
              | str s => simp [getPath] at hT'
              | arr xs => simp [getPath] at hT'
        | null =>
          simp only [deepMergeEntry, Option.some_inj] at he
          subst he
          rw [hgt] at hRk
          rw [getPath_cons_some hRk]
          exact hT'
        | bool b =>
          simp only [deepMergeEntry, Option.some_inj] at he
          subst he
          rw [hgt] at hRk
          rw [getPath_cons_some hRk]
          exact hT'
        | num s =>
          simp only [deepMergeEntry, Option.some_inj] at he
          subst he
          rw [hgt] at hRk
          rw [getPath_cons_some hRk]
          exact hT'
        | str s =>
          simp only [deepMergeEntry, Option.some_inj] at he
          subst he
          rw [hgt] at hRk
          rw [getPath_cons_some hRk]
          exact hT'
        | arr xs =>
          simp only [deepMergeEntry, Option.some_inj] at he
          subst he
          rw [hgt] at hRk
          rw [getPath_cons_some hRk]
          exact hT'

/-- Part 3 of C1: every target path not extending a preset leaf path is
still present (with some value) after the merge — the merge deletes nothing
outside leaf overlays. -/
theorem deepMerge_presencePath :
    ∀ (p : List String) {P target R : JsonObj} {w : Json},
      wfJson (Json.obj P) = true →
      deepMergeModel target P = some R →
      getPath (Json.obj target) p = some w →
      (∀ q L, LeafAt P q L → ¬ isProperPre q p) →
      ∃ w', getPath (Json.obj R) p = some w' := by
  intro p
  induction p with
  | nil =>
    intro P target R w _ _ _ _
    exact ⟨Json.obj R, rfl⟩
  | cons k p' ih =>
    intro P target R w hw hm hT havoid
    cases hgt : jsGet target k with
    | none => simp [getPath, hgt] at hT
    | some u =>
      have hT' : getPath u p' = some w := by simpa [getPath, hgt] using hT
      cases hPk : jsGet P k with
      | none =>
        have hRk : jsGet R k = some u := by
          rw [deepMergeModel_get_absent hm k (jsGet_eq_none_iff.mp hPk), hgt]
        exact ⟨w, by rw [getPath_cons_some hRk]; exact hT'⟩
      | some v0 =>
        have hn := (wfJson_obj_parts hw).1
        rcases deepMergeModel_get_present hn hm k v0 hPk with ⟨t', he, hRk⟩
        cases v0 with
        | obj vo =>
          by_cases hleaf : isLeafNode vo = true
          · cases p' with
            | nil =>
              rw [deepMergeEntry_leaf target k hleaf, Option.some_inj] at he
              subst he
              rw [jsGet_set_self] at hRk
              exact exists_getPath_singleton hRk
            | cons k2 t =>
              exact absurd ⟨k2, t, rfl⟩ (havoid [k] vo (LeafAt.here hPk hleaf))
          · have hbr : isLeafNode vo = false := by simpa using hleaf
            cases p' with
            | nil =>
              -- the entry succeeded, so the slot holds some value afterwards
              cases u with
              | obj o2 =>
                rw [deepMergeEntry_branch_obj target k hbr hgt] at he
                rcases Option.map_eq_some'.mp he with ⟨o', _, rfl⟩
                rw [jsGet_set_self] at hRk
                exact exists_getPath_singleton hRk
              | null =>
                rw [deepMergeEntry_branch_null target k hbr hgt] at he
                rcases Option.map_eq_some'.mp he with ⟨o', _, rfl⟩
                rw [jsGet_set_self] at hRk
                exact exists_getPath_singleton hRk
              | bool b =>
                simp only [deepMergeEntry, hbr, Bool.false_eq_true, if_false, hgt] at he
                by_cases ho : hasObjEntry vo = true
                · simp [ho] at he
                · simp only [Bool.not_eq_true] at ho
                  simp only [ho, Bool.false_eq_true, if_false, Option.some_inj] at he
                  subst he
                  rw [jsGet_set_self] at hRk
                  exact exists_getPath_singleton hRk
              | num s =>
                simp only [deepMergeEntry, hbr, Bool.false_eq_true, if_false, hgt] at he
                by_cases ho : hasObjEntry vo = true
                · simp [ho] at he
                · simp only [Bool.not_eq_true] at ho
                  simp only [ho, Bool.false_eq_true, if_false, Option.some_inj] at he
                  subst he
                  rw [jsGet_set_self] at hRk
                  exact exists_getPath_singleton hRk
              | str s =>
                simp only [deepMergeEntry, hbr, Bool.false_eq_true, if_false, hgt] at he
                by_cases ho : hasObjEntry vo = true
                · simp [ho] at he
                · simp only [Bool.not_eq_true] at ho
                  simp only [ho, Bool.false_eq_true, if_false, Option.some_inj] at he
                  subst he
                  rw [jsGet_set_self] at hRk
                  exact exists_getPath_singleton hRk
              | arr xs =>
                simp only [deepMergeEntry, hbr, Bool.false_eq_true, if_false, hgt] at he
                by_cases ho : hasObjEntry vo = true
                · simp [ho] at he
                · simp only [Bool.not_eq_true] at ho
                  simp only [ho, Bool.false_eq_true, if_false, Option.some_inj] at he
                  subst he
                  rw [jsGet_set_self] at hRk
                  exact exists_getPath_singleton hRk
            | cons k2 t =>
              cases u with
              | obj o2 =>
                rw [deepMergeEntry_branch_obj target k hbr hgt] at he
                rcases Option.map_eq_some'.mp he with ⟨o', hmo, rfl⟩
                rw [jsGet_set_self] at hRk
                have hwvo : wfJson (Json.obj vo) = true :=
                  wfObj_forall (wfJson_obj_parts hw).2 _ (jsGet_mem hPk)
                have havoid' : ∀ q L, LeafAt vo q L → ¬ isProperPre q (k2 :: t) := by
                  intro q L hq hpre
                  rcases hpre with ⟨k3, t3, heq⟩
                  refine havoid (k :: q) L (LeafAt.deeper hPk hbr hq) ⟨k3, t3, ?_⟩
                  rw [List.cons_append]
                  exact congrArg (List.cons k) heq
                rcases ih hwvo hmo hT' havoid' with ⟨w', hw'⟩
                exact ⟨w', by rw [getPath_cons_some hRk]; exact hw'⟩
              | null => simp [getPath] at hT'
              | bool b => simp [getPath] at hT'
              | num s => simp [getPath] at hT'
              | str s => simp [getPath] at hT'
              | arr xs => simp [getPath] at hT'
        | null =>
          simp only [deepMergeEntry, Option.some_inj] at he
          subst he
          rw [hgt] at hRk
          exact ⟨w, by rw [getPath_cons_some hRk]; exact hT'⟩
        | bool b =>
          simp only [deepMergeEntry, Option.some_inj] at he
          subst he
          rw [hgt] at hRk
          exact ⟨w, by rw [getPath_cons_some hRk]; exact hT'⟩
        | num s =>
          simp only [deepMergeEntry, Option.some_inj] at he
          subst he
          rw [hgt] at hRk
          exact ⟨w, by rw [getPath_cons_some hRk]; exact hT'⟩
        | str s =>
          simp only [deepMergeEntry, Option.some_inj] at he
          subst he
          rw [hgt] at hRk
          exact ⟨w, by rw [getPath_cons_some hRk]; exact hT'⟩
        | arr xs =>
          simp only [deepMergeEntry, Option.some_inj] at he
          subst he
          rw [hgt] at hRk
          exact ⟨w, by rw [getPath_cons_some hRk]; exact hT'⟩

/-! ### C2: the drift detector -/

theorem jsPathGet_singleton (A : Json) (k : String) :
    jsPathGet A [k] = jsProp A k := by
  cases h : jsProp A k <;> simp [jsPathGet, h]

theorem jsPathGet_cons (A : Json) (k : String) (t : List String) :
    jsPathGet A (k :: t) =
      (match jsProp A k with
       | some a => jsPathGet a t
       | none => none) := rfl

/-- Dead values are closed under property reads. -/
theorem deadJs_prop {a : Json} (hd : deadJs a = true) {k : String} {b : Json}
    (h : jsProp a k = some b) : deadJs b = true := by
  cases a with
  | str s =>
    simp only [jsProp] at h
    cases hn : strToNat? k with
    | some n =>
      simp only [hn] at h
      by_cases hc : natToDec n = k
      · rw [if_pos hc] at h
        rcases Option.map_eq_some'.mp h with ⟨c, _, rfl⟩
        rfl
      · rw [if_neg hc] at h; cases h
    | none =>
      simp only [hn] at h
      by_cases hl : k = "length"
      · rw [if_pos hl, Option.some_inj] at h
        subst h; rfl
      · rw [if_neg hl] at h; cases h
  | null => cases h
  | bool b' => cases h
  | num s => cases h
  | arr xs => cases hd
  | obj o => cases hd

/-- No dead value has a `model` property. -/
theorem deadJs_no_model {a : Json} (hd : deadJs a = true) :
    jsProp a "model" = none := by
  cases a with
  | str s =>
    have : strToNat? "model" = none := by decide
    simp [jsProp, this]
  | null => rfl
  | bool b => rfl
  | num s => rfl
  | arr xs => cases hd
  | obj o => cases hd

/-- A falsy value is dead (objects and arrays are always truthy). -/
theorem deadJs_of_falsy {a : Json} (h : jsTruthy a = false) : deadJs a = true := by
  cases a <;> first | rfl | cases h

theorem jsPathGet_dead :
    ∀ (t : List String) (a : Json), deadJs a = true →
      jsPathGet a t = none ∨ ∃ b, jsPathGet a t = some b ∧ deadJs b = true := by
  intro t
  induction t with
  | nil => intro a ha; exact Or.inr ⟨a, rfl, ha⟩
  | cons k t' ih =>
    intro a ha
    rw [jsPathGet_cons]
    cases hp : jsProp a k with
    | none => exact Or.inl rfl
    | some b => exact ih b (deadJs_prop ha hp)

theorem leaf_model_mem {L : JsonObj} (h : isLeafNode L = true) :
    ∃ m, ("model", Json.str m) ∈ L := by
  unfold isLeafNode at h
  cases hg : jsGet L "model" with
  | none => rw [hg] at h; cases h
  | some v =>
    rw [hg] at h
    cases v with
    | str m => exact ⟨m, jsGet_mem hg⟩
    | null => cases h
    | bool b => cases h
    | num s => cases h
    | arr xs => cases h
    | obj o => cases h

theorem LeafAt_nil {p : List String} {L : JsonObj} : ¬ LeafAt [] p L := by
  intro h
  rcases LeafAt_shape h with ⟨k, t, vo, _, hg⟩
  cases hg

theorem hasLeafB_of_entry :
    ∀ {E : JsonObj} {k : String} {v : Json}, (k, v) ∈ E → hasLeafV v = true →
      hasLeafB E = true := by
  intro E
  induction E with
  | nil => intro k v h _; cases h
  | cons hd tl ih =>
    intro k v h hv
    rcases List.mem_cons.mp h with he | he
    · subst he
      simp [hasLeafB, hv]
    · simp [hasLeafB, ih he hv]

theorem LeafAt_to_hasLeafB {E : JsonObj} {p : List String} {L : JsonObj}
    (h : LeafAt E p L) : hasLeafB E = true := by
  induction h with
  | here hget hleaf =>
    exact hasLeafB_of_entry (jsGet_mem hget) (by simp [hasLeafV, hleaf])
  | deeper hget hbr _ ih =>
    exact hasLeafB_of_entry (jsGet_mem hget) (by simp [hasLeafV, hbr, ih])

/-- Along any path into a dead value, every expected leaf reports a
mismatch: the path dies inside primitives, and no primitive carries a
`model` field. -/
theorem dead_mismatch {a : Json} (hd : deadJs a = true) {t : List String}
    {L : JsonObj} (hL : isLeafNode L = true) : mismatchAt a t L := by
  rcases jsPathGet_dead t a hd with h | ⟨b, hb, hbd⟩
  · exact Or.inl h
  · refine Or.inr ⟨b, hb, ?_⟩
    rcases leaf_model_mem hL with ⟨m, hm⟩
    exact ⟨("model", Json.str m), hm, by rw [deadJs_no_model hbd]; simp⟩

/-- Decomposition of leaf paths of a cons tree whose head key is not
duplicated. -/
theorem LeafAt_cons_iff {k : String} {v : Json} {rest : JsonObj}
    (hnod : k ∉ rest.map Prod.fst) {p : List String} {L : JsonObj} :
    LeafAt ((k, v) :: rest) p L ↔
      ((∃ vo, v = Json.obj vo ∧
          ((p = [k] ∧ L = vo ∧ isLeafNode vo = true)
           ∨ (isLeafNode vo = false ∧ ∃ t, p = k :: t ∧ LeafAt vo t L)))
       ∨ LeafAt rest p L) := by
  constructor
  · intro h
    cases h with
    | here hget hleaf =>
      rename_i k1
      by_cases hk : k = k1
      · subst hk
        have : v = Json.obj L := by simpa [jsGet] using hget
        exact Or.inl ⟨L, this, Or.inl ⟨rfl, rfl, hleaf⟩⟩
      · have hget' : jsGet rest k1 = some (Json.obj L) := by
          simpa [jsGet, hk] using hget
        exact Or.inr (LeafAt.here hget' hleaf)
    | deeper hget hbr hsub =>
      rename_i k1 B t
      by_cases hk : k = k1
      · subst hk
        have : v = Json.obj B := by simpa [jsGet] using hget
        exact Or.inl ⟨B, this, Or.inr ⟨hbr, t, rfl, hsub⟩⟩
      · have hget' : jsGet rest k1 = some (Json.obj B) := by
          simpa [jsGet, hk] using hget
        exact Or.inr (LeafAt.deeper hget' hbr hsub)
  · intro h
    rcases h with ⟨vo, rfl, hcase⟩ | hrest
    · rcases hcase with ⟨rfl, rfl, hleaf⟩ | ⟨hbr, t, rfl, hsub⟩
      · exact LeafAt.here (by simp [jsGet]) hleaf
      · exact LeafAt.deeper (by simp [jsGet]) hbr hsub
    · rcases LeafAt_shape hrest with ⟨k1, t, vo, rfl, hget⟩
      have hk : k ≠ k1 := by
        intro he
        subst he
        have hnone : jsGet rest k = none := jsGet_eq_none_iff.mpr hnod
        rw [hnone] at hget
        cases hget
      have hlift : jsGet ((k, v) :: rest) k1 = jsGet rest k1 := by
        simp [jsGet, hk]
      cases hrest with
      | here hget2 hleaf => exact LeafAt.here (hlift.trans hget2) hleaf
      | deeper hget2 hbr hsub => exact LeafAt.deeper (hlift.trans hget2) hbr hsub

theorem wf_obj_tail {k : String} {v : Json} {rest : JsonObj}
    (h : wfJson (Json.obj ((k, v) :: rest)) = true) :
    wfJson (Json.obj rest) = true := by
  obtain ⟨hn, ho⟩ := wfJson_obj_parts h
  simp only [List.map_cons, List.nodup_cons] at hn
  simp only [wfObj, Bool.and_eq_true] at ho
  simp [wfJson, hn.2, ho.2]

theorem wf_head {k : String} {v : Json} {rest : JsonObj}
    (h : wfJson (Json.obj ((k, v) :: rest)) = true) : wfJson v = true := by
  obtain ⟨_, ho⟩ := wfJson_obj_parts h
  simp only [wfObj, Bool.and_eq_true] at ho
  exact ho.1

theorem LeafAt_leaf {E : JsonObj} {p : List String} {L : JsonObj}
    (h : LeafAt E p L) : isLeafNode L = true := by
  induction h with
  | here _ hleaf => exact hleaf
  | deeper _ _ _ ih => exact ih

theorem mismatchAt_cons_some {A a : Json} {k : String}
    (h : jsProp A k = some a) (t : List String) (L : JsonObj) :
    mismatchAt A (k :: t) L ↔ mismatchAt a t L := by
  unfold mismatchAt
  rw [jsPathGet_cons, h]

theorem mismatchAt_cons_none {A : Json} {k : String}
    (h : jsProp A k = none) (t : List String) (L : JsonObj) :
    mismatchAt A (k :: t) L := by
  unfold mismatchAt
  rw [jsPathGet_cons, h]
  exact Or.inl rfl

theorem hasLeafB_to_LeafAt : (E : JsonObj) → wfJson (Json.obj E) = true →
    hasLeafB E = true → ∃ p L, LeafAt E p L
  | [], _, h => by cases h
  | (k, v) :: rest, hw, h => by
      have hnod : k ∉ rest.map Prod.fst := by
        have := (wfJson_obj_parts hw).1
        simp only [List.map_cons, List.nodup_cons] at this
        exact this.1
      have hsplit : hasLeafV v = true ∨ hasLeafB rest = true := by
        simpa [hasLeafB] using h
      rcases hsplit with hv | hr
      · cases v with
        | obj vo =>
          by_cases hleaf : isLeafNode vo = true
          · exact ⟨[k], vo, LeafAt.here (by simp [jsGet]) hleaf⟩
          · have hbr : isLeafNode vo = false := by simpa using hleaf
            have hB : hasLeafB vo = true := by simpa [hasLeafV, hbr] using hv
            have hwvo : wfJson (Json.obj vo) = true := wf_head hw
            rcases hasLeafB_to_LeafAt vo hwvo hB with ⟨p, L, hsub⟩
            exact ⟨k :: p, L, LeafAt.deeper (by simp [jsGet]) hbr hsub⟩
        | null => cases hv
        | bool b => cases hv
        | num s => cases hv
        | str s => cases hv
        | arr xs => cases hv
      · rcases hasLeafB_to_LeafAt rest (wf_obj_tail hw) hr with ⟨p, L, hsub⟩
        exact ⟨p, L, (LeafAt_cons_iff hnod).mpr (Or.inr hsub)⟩
termination_by E => sizeOf E
decreasing_by all_goals (simp_wf <;> (try subst_vars) <;> (try simp_wf) <;> omega)

/-- Against an empty actual object, the drift check reports drift exactly
when the expected tree contains any leaf. -/
theorem driftEmpty_eq : (E : JsonObj) → hasDriftRecursive (Json.obj []) E = hasLeafB E
  | [] => rfl
  | (k, v) :: rest => by
      have hrest := driftEmpty_eq rest
      cases v with
      | obj vo =>
        by_cases hleaf : isLeafNode vo = true
        · simp [hasDriftRecursive, hasDriftEntry, hleaf, jsProp, jsGet, hasLeafB, hasLeafV]
        · have hbr : isLeafNode vo = false := by simpa using hleaf
          have hvo := driftEmpty_eq vo
          simp only [hasDriftRecursive, hasDriftEntry, hbr, Bool.false_eq_true, if_false,
            jsProp, jsGet, hasLeafB, hasLeafV, hvo, hrest]
          cases hasLeafB vo <;> simp
      | null => simp [hasDriftRecursive, hasDriftEntry, hasLeafB, hasLeafV, hrest]
      | bool b => simp [hasDriftRecursive, hasDriftEntry, hasLeafB, hasLeafV, hrest]
      | num s => simp [hasDriftRecursive, hasDriftEntry, hasLeafB, hasLeafV, hrest]
      | str s => simp [hasDriftRecursive, hasDriftEntry, hasLeafB, hasLeafV, hrest]
      | arr xs => simp [hasDriftRecursive, hasDriftEntry, hasLeafB, hasLeafV, hrest]
termination_by E => sizeOf E
decreasing_by all_goals (simp_wf <;> (try subst_vars) <;> (try simp_wf) <;> omega)

theorem driftWitness_cons {A : Json} {k : String} {v : Json} {rest : JsonObj}
    (hnod : k ∉ rest.map Prod.fst) :
    driftWitness A ((k, v) :: rest) ↔
      ((∃ vo, v = Json.obj vo ∧
         ((isLeafNode vo = true ∧ mismatchAt A [k] vo)
          ∨ (isLeafNode vo = false ∧ ∃ t L, LeafAt vo t L ∧ mismatchAt A (k :: t) L)))
       ∨ driftWitness A rest) := by
  constructor
  · rintro ⟨p, L, hL, hm⟩
    rcases (LeafAt_cons_iff hnod).mp hL with ⟨vo, rfl, hcase⟩ | hrest
    · rcases hcase with ⟨rfl, rfl, hleaf⟩ | ⟨hbr, t, rfl, hsub⟩
      · exact Or.inl ⟨L, rfl, Or.inl ⟨hleaf, hm⟩⟩
      · exact Or.inl ⟨vo, rfl, Or.inr ⟨hbr, t, L, hsub, hm⟩⟩
    · exact Or.inr ⟨p, L, hrest, hm⟩
  · rintro (⟨vo, rfl, hcase⟩ | ⟨p, L, hL, hm⟩)
    · rcases hcase with ⟨hleaf, hm⟩ | ⟨hbr, t, L, hsub, hm⟩
      · exact ⟨[k], vo,
          (LeafAt_cons_iff hnod).mpr (Or.inl ⟨vo, rfl, Or.inl ⟨rfl, rfl, hleaf⟩⟩), hm⟩
      · exact ⟨k :: t, L,
          (LeafAt_cons_iff hnod).mpr (Or.inl ⟨vo, rfl, Or.inr ⟨hbr, t, rfl, hsub⟩⟩), hm⟩
    · exact ⟨p, L, (LeafAt_cons_iff hnod).mpr (Or.inr hL), hm⟩

mutual

/-- The drift check returns true exactly when some expected leaf is missing
or mismatched along the corresponding property path of the actual value. -/
theorem driftEquiv : (E : JsonObj) → (A : Json) → wfJson (Json.obj E) = true →
    (hasDriftRecursive A E = true ↔ driftWitness A E)
  | [], A, _ => by
      constructor
      · intro h
        simp [hasDriftRecursive] at h
      · rintro ⟨p, L, hL, _⟩
        exact absurd hL LeafAt_nil
  | (k, v) :: rest, A, hw => by
      have hnod : k ∉ rest.map Prod.fst := by
        have := (wfJson_obj_parts hw).1
        simp only [List.map_cons, List.nodup_cons] at this
        exact this.1
      have hIH := driftEquiv rest A (wf_obj_tail hw)
      have hE := driftEntryEquiv v A k (wf_head hw)
      rw [driftWitness_cons hnod]
      constructor
      · intro h
        by_cases he : hasDriftEntry A k v = true
        · exact Or.inl (hE.mp he)
        · have hr : hasDriftRecursive A rest = true := by
            simpa [hasDriftRecursive, he] using h
          exact Or.inr (hIH.mp hr)
      · intro h
        rcases h with hentry | hrest
        · have := hE.mpr hentry
          simp [hasDriftRecursive, this]
        · by_cases he : hasDriftEntry A k v = true
          · simp [hasDriftRecursive, he]
          · simp [hasDriftRecursive, he, hIH.mpr hrest]
termination_by E _ _ => sizeOf E
decreasing_by all_goals (simp_wf; try omega)

/-- Entry-level version of `driftEquiv`. -/
theorem driftEntryEquiv : (v : Json) → (A : Json) → (k : String) → wfJson v = true →
    (hasDriftEntry A k v = true ↔
      (∃ vo, v = Json.obj vo ∧
        ((isLeafNode vo = true ∧ mismatchAt A [k] vo)
         ∨ (isLeafNode vo = false ∧ ∃ t L, LeafAt vo t L ∧ mismatchAt A (k :: t) L))))
  | Json.obj vo, A, k, hwv => by
      by_cases hleaf : isLeafNode vo = true
      · constructor
        · intro h
          refine ⟨vo, rfl, Or.inl ⟨hleaf, ?_⟩⟩
          cases hp : jsProp A k with
          | none => exact Or.inl (by rw [jsPathGet_singleton, hp])
          | some a =>
            refine Or.inr ⟨a, by rw [jsPathGet_singleton, hp], ?_⟩
            by_cases ht : jsTruthy a = true
            · have hany : vo.any (fun q => decide (jsProp a q.1 ≠ some q.2)) = true := by
                simpa [hasDriftEntry, hleaf, hp, ht] using h
              rcases List.any_eq_true.mp hany with ⟨kv, hmem, hkv⟩
              exact ⟨kv, hmem, of_decide_eq_true hkv⟩
            · have hdead : deadJs a = true := deadJs_of_falsy (by simpa using ht)
              rcases leaf_model_mem hleaf with ⟨m, hm⟩
              exact ⟨("model", Json.str m), hm, by rw [deadJs_no_model hdead]; simp⟩
        · rintro ⟨vo', heq, hcase⟩
          injection heq with h2
          subst h2
          rcases hcase with ⟨_, hm⟩ | ⟨hbr, _⟩
          · rcases hm with hnone | ⟨a, ha, kv, hmem, hne⟩
            · rw [jsPathGet_singleton] at hnone
              simp [hasDriftEntry, hleaf, hnone]
            · rw [jsPathGet_singleton] at ha
              by_cases ht : jsTruthy a = true
              · simp [hasDriftEntry, hleaf, ha, ht]
                exact ⟨kv.1, kv.2, by simpa using hmem, hne⟩
              · simp [hasDriftEntry, hleaf, ha, ht]
          · rw [hleaf] at hbr
            cases hbr
      · have hbr : isLeafNode vo = false := by simpa using hleaf
        constructor
        · intro h
          refine ⟨vo, rfl, Or.inr ⟨hbr, ?_⟩⟩
          cases hp : jsProp A k with
          | none =>
            have hchild : hasDriftRecursive (Json.obj []) vo = true := by
              simpa [hasDriftEntry, hbr, hp] using h
            rw [driftEmpty_eq] at hchild
            rcases hasLeafB_to_LeafAt vo hwv hchild with ⟨t, L, hL⟩
            exact ⟨t, L, hL, mismatchAt_cons_none hp t L⟩
          | some a =>
            by_cases ht : jsTruthy a = true
            · have hchild : hasDriftRecursive a vo = true := by
                simpa [hasDriftEntry, hbr, hp, ht] using h
              rcases (driftEquiv vo a hwv).mp hchild with ⟨t, L, hL, hm⟩
              exact ⟨t, L, hL, (mismatchAt_cons_some hp t L).mpr hm⟩
            · have hchild : hasDriftRecursive (Json.obj []) vo = true := by
                simpa [hasDriftEntry, hbr, hp, ht] using h
              rw [driftEmpty_eq] at hchild
              rcases hasLeafB_to_LeafAt vo hwv hchild with ⟨t, L, hL⟩
              refine ⟨t, L, hL, (mismatchAt_cons_some hp t L).mpr ?_⟩
              exact dead_mismatch (deadJs_of_falsy (by simpa using ht)) (LeafAt_leaf hL)
        · rintro ⟨vo', heq, hcase⟩
          injection heq with h2
          subst h2
          rcases hcase with ⟨hlf, _⟩ | ⟨_, t, L, hL, hm⟩
          · rw [hlf] at hbr
            cases hbr
          · cases hp : jsProp A k with
            | none =>
              have hBvo : hasLeafB vo = true := LeafAt_to_hasLeafB hL
              simp [hasDriftEntry, hbr, hp, driftEmpty_eq, hBvo]
            | some a =>
              by_cases ht : jsTruthy a = true
              · have hm' : mismatchAt a t L := (mismatchAt_cons_some hp t L).mp hm
                have hda : hasDriftRecursive a vo = true :=
                  (driftEquiv vo a hwv).mpr ⟨t, L, hL, hm'⟩
                simp [hasDriftEntry, hbr, hp, ht, hda]
              · have hBvo : hasLeafB vo = true := LeafAt_to_hasLeafB hL
                simp [hasDriftEntry, hbr, hp, ht, driftEmpty_eq, hBvo]
  | Json.null, A, k, _ => by
      constructor
      · intro h
        simp [hasDriftEntry] at h
      · rintro ⟨vo, heq, _⟩
        cases heq
  | Json.bool b, A, k, _ => by
      constructor
      · intro h
        simp [hasDriftEntry] at h
      · rintro ⟨vo, heq, _⟩
        cases heq
  | Json.num s, A, k, _ => by
      constructor
      · intro h
        simp [hasDriftEntry] at h
      · rintro ⟨vo, heq, _⟩
        cases heq
  | Json.str s, A, k, _ => by
      constructor
      · intro h
        simp [hasDriftEntry] at h
      · rintro ⟨vo, heq, _⟩
        cases heq
  | Json.arr xs, A, k, _ => by
      constructor
      · intro h
        simp [hasDriftEntry] at h
      · rintro ⟨vo, heq, _⟩
        cases heq
termination_by v _ _ _ => sizeOf v
decreasing_by all_goals (simp_wf; try omega)

end

theorem LeafAt_path_self {E : JsonObj} {p : List String} {L : JsonObj}
    (h : LeafAt E p L) : jsPathGet (Json.obj E) p = some (Json.obj L) := by
  induction h with
  | here hget _ =>
    rw [jsPathGet_singleton]
    exact hget
  | deeper hget _ _ ih =>
    rw [jsPathGet_cons]
    simp only [jsProp, hget]
    exact ih

/-- The drift check is reflexive on well-formed trees. -/
theorem drift_self_false {X : JsonObj} (hX : wfJson (Json.obj X) = true) :
    hasDriftRecursive (Json.obj X) X = false := by
  cases hb : hasDriftRecursive (Json.obj X) X with
  | false => rfl
  | true =>
    exfalso
    rcases (driftEquiv X (Json.obj X) hX).mp hb with ⟨p, L, hL, hm⟩
    have hpath := LeafAt_path_self hL
    rcases hm with hnone | ⟨a, ha, kv, hmem, hne⟩
    · rw [hpath] at hnone
      cases hnone
    · rw [hpath, Option.some_inj] at ha
      subst ha
      have hnL : (L.map Prod.fst).Nodup := (wfJson_obj_parts (wf_of_LeafAt hL hX)).1
      obtain ⟨kk, vv⟩ := kv
      exact hne (jsGet_of_mem_nodup hnL hmem)

/-! ### C2 under reference semantics: the faithful drift detector -/

theorem rGet_mem {o : RObj} {k : String} {v : RJson} (h : rGet o k = some v) :
    (k, v) ∈ o := by
  induction o with
  | nil => simp [rGet] at h
  | cons hd tl ih =>
    cases hd with
    | mk k' v' =>
      simp only [rGet] at h
      by_cases hk : k' = k
      · rw [if_pos hk] at h
        cases h
        subst hk
        exact List.mem_cons_self _ _
      · rw [if_neg hk] at h
        exact List.mem_cons_of_mem _ (ih h)

theorem rGet_eq_none_iff {o : RObj} {k : String} :
    rGet o k = none ↔ k ∉ o.map Prod.fst := by
  induction o with
  | nil => simp [rGet]
  | cons hd tl ih =>
    cases hd with
    | mk k' v' =>
      by_cases hk : k' = k
      · subst hk
        simp [rGet]
      · simp [rGet, hk, ih, Ne.symm hk]

theorem rGet_of_mem_nodup {o : RObj} {k : String} {v : RJson}
    (hn : (o.map Prod.fst).Nodup) (hm : (k, v) ∈ o) : rGet o k = some v := by
  induction o with
  | nil => simp at hm
  | cons hd tl ih =>
    cases hd with
    | mk k' v' =>
      simp only [List.map_cons, List.nodup_cons] at hn
      rcases List.mem_cons.mp hm with h | h
      · cases h
        simp [rGet]
      · have hk : k' ≠ k := by
          intro he
          subst he
          exact hn.1 (List.mem_map.mpr ⟨(k', v), h, rfl⟩)
        simp only [rGet, if_neg hk]
        exact ih hn.2 h

theorem wfObjR_forall {fs : RObj} (h : wfObjR fs = true) :
    ∀ p ∈ fs, wfR p.2 = true := by
  induction fs with
  | nil => simp
  | cons hd tl ih =>
    simp only [wfObjR, Bool.and_eq_true] at h
    intro p hp
    rcases List.mem_cons.mp hp with he | he
    · subst he; exact h.1
    · exact ih h.2 p he

theorem wfR_obj_parts {i : Nat} {fs : RObj} (h : wfR (RJson.obj i fs) = true) :
    (fs.map Prod.fst).Nodup ∧ wfObjR fs = true := by
  simp only [wfR, Bool.and_eq_true, decide_eq_true_eq] at h
  exact h

theorem RLeafAt_shape {B : RObj} {p : List String} {L : RObj} (h : RLeafAt B p L) :
    ∃ k t i vo, p = k :: t ∧ rGet B k = some (RJson.obj i vo) := by
  cases h with
  | here hget _ => exact ⟨_, [], _, _, rfl, hget⟩
  | deeper hget _ _ => exact ⟨_, _, _, _, rfl, hget⟩

theorem nodupR_of_RLeafAt {P : RObj} {p : List String} {L : RObj}
    (hl : RLeafAt P p L) (hw : wfObjR P = true) :
    (L.map Prod.fst).Nodup := by
  induction hl with
  | here hget _ =>
    exact (wfR_obj_parts (wfObjR_forall hw _ (rGet_mem hget))).1
  | deeper hget _ _ ih =>
    exact ih (wfR_obj_parts (wfObjR_forall hw _ (rGet_mem hget))).2

theorem rPathGet_singleton (A : RJson) (k : String) :
    rPathGet A [k] = rProp A k := by
  cases h : rProp A k <;> simp [rPathGet, h]

theorem rPathGet_cons (A : RJson) (k : String) (t : List String) :
    rPathGet A (k :: t) =
      (match rProp A k with
       | some a => rPathGet a t
       | none => none) := rfl

/-- Dead reference-aware values are closed under property reads. -/
theorem deadR_prop {a : RJson} (hd : deadR a = true) {k : String} {b : RJson}
    (h : rProp a k = some b) : deadR b = true := by
  cases a with
  | str s =>
    simp only [rProp] at h
    cases hn : strToNat? k with
    | some n =>
      simp only [hn] at h
      by_cases hc : natToDec n = k
      · rw [if_pos hc] at h
        rcases Option.map_eq_some'.mp h with ⟨c, _, rfl⟩
        rfl
      · rw [if_neg hc] at h; cases h
    | none =>
      simp only [hn] at h
      by_cases hl : k = "length"
      · rw [if_pos hl, Option.some_inj] at h
        subst h; rfl
      · rw [if_neg hl] at h; cases h
  | null => cases h
  | bool b' => cases h
  | num s => cases h
  | arr i xs => cases hd
  | obj i o => cases hd

theorem deadR_no_model {a : RJson} (hd : deadR a = true) :
    rProp a "model" = none := by
  cases a with
  | str s =>
    have : strToNat? "model" = none := by decide
    simp [rProp, this]
  | null => rfl
  | bool b => rfl
  | num s => rfl
  | arr i xs => cases hd
  | obj i o => cases hd

theorem deadR_of_falsy {a : RJson} (h : rTruthy a = false) : deadR a = true := by
  cases a <;> first | rfl | cases h

theorem rPathGet_dead :
    ∀ (t : List String) (a : RJson), deadR a = true →
      rPathGet a t = none ∨ ∃ b, rPathGet a t = some b ∧ deadR b = true := by
  intro t
  induction t with
  | nil => intro a ha; exact Or.inr ⟨a, rfl, ha⟩
  | cons k t' ih =>
    intro a ha
    rw [rPathGet_cons]
    cases hp : rProp a k with
    | none => exact Or.inl rfl
    | some b => exact ih b (deadR_prop ha hp)

theorem leafR_model_mem {L : RObj} (h : isLeafNodeR L = true) :
    ∃ m, ("model", RJson.str m) ∈ L := by
  unfold isLeafNodeR at h
  cases hg : rGet L "model" with
  | none => rw [hg] at h; cases h
  | some v =>
    rw [hg] at h
    cases v with
    | str m => exact ⟨m, rGet_mem hg⟩
    | null => cases h
    | bool b => cases h
    | num s => cases h
    | arr i xs => cases h
    | obj i o => cases h

theorem RLeafAt_nil {p : List String} {L : RObj} : ¬ RLeafAt [] p L := by
  intro h
  rcases RLeafAt_shape h with ⟨k, t, i, vo, _, hg⟩
  cases hg

theorem hasLeafBR_of_entry :
    ∀ {E : RObj} {k : String} {v : RJson}, (k, v) ∈ E → hasLeafVR v = true →
      hasLeafBR E = true := by
  intro E
  induction E with
  | nil => intro k v h _; cases h
  | cons hd tl ih =>
    intro k v h hv
    rcases List.mem_cons.mp h with he | he
    · subst he
      simp [hasLeafBR, hv]
    · simp [hasLeafBR, ih he hv]

theorem RLeafAt_to_hasLeafBR {E : RObj} {p : List String} {L : RObj}
    (h : RLeafAt E p L) : hasLeafBR E = true := by
  induction h with
  | here hget hleaf =>
    exact hasLeafBR_of_entry (rGet_mem hget) (by simp [hasLeafVR, hleaf])
  | deeper hget hbr _ ih =>
    exact hasLeafBR_of_entry (rGet_mem hget) (by simp [hasLeafVR, hbr, ih])

/-- Along any path into a dead value every expected leaf reports a mismatch:
the path dies inside primitives, and no primitive carries a `model` field. -/
theorem deadR_mismatch {a : RJson} (hd : deadR a = true) {t : List String}
    {L : RObj} (hL : isLeafNodeR L = true) : mismatchAtR a t L := by
  rcases rPathGet_dead t a hd with h | ⟨b, hb, hbd⟩
  · exact Or.inl h
  · refine Or.inr ⟨b, hb, ?_⟩
    rcases leafR_model_mem hL with ⟨m, hm⟩
    exact ⟨("model", RJson.str m), hm, by rw [deadR_no_model hbd]; simp⟩

theorem RLeafAt_cons_iff {k : String} {v : RJson} {rest : RObj}
    (hnod : k ∉ rest.map Prod.fst) {p : List String} {L : RObj} :
    RLeafAt ((k, v) :: rest) p L ↔
      ((∃ i vo, v = RJson.obj i vo ∧
          ((p = [k] ∧ L = vo ∧ isLeafNodeR vo = true)
           ∨ (isLeafNodeR vo = false ∧ ∃ t, p = k :: t ∧ RLeafAt vo t L)))
       ∨ RLeafAt rest p L) := by
  constructor
  · intro h
    cases h with
    | @here _ k1 i _ hget hleaf =>
      by_cases hk : k = k1
      · subst hk
        have : v = RJson.obj i L := by simpa [rGet] using hget
        exact Or.inl ⟨i, L, this, Or.inl ⟨rfl, rfl, hleaf⟩⟩
      · have hget' : rGet rest k1 = some (RJson.obj i L) := by
          simpa [rGet, hk] using hget
        exact Or.inr (RLeafAt.here hget' hleaf)
    | @deeper _ k1 i B t _ hget hbr hsub =>
      by_cases hk : k = k1
      · subst hk
        have : v = RJson.obj i B := by simpa [rGet] using hget
        exact Or.inl ⟨i, B, this, Or.inr ⟨hbr, t, rfl, hsub⟩⟩
      · have hget' : rGet rest k1 = some (RJson.obj i B) := by
          simpa [rGet, hk] using hget
        exact Or.inr (RLeafAt.deeper hget' hbr hsub)
  · intro h
    rcases h with ⟨i, vo, rfl, hcase⟩ | hrest
    · rcases hcase with ⟨rfl, rfl, hleaf⟩ | ⟨hbr, t, rfl, hsub⟩
      · exact RLeafAt.here
          (show rGet ((k, RJson.obj i L) :: rest) k = some (RJson.obj i L) by simp [rGet])
          hleaf
      · exact RLeafAt.deeper
          (show rGet ((k, RJson.obj i vo) :: rest) k = some (RJson.obj i vo) by
            simp [rGet])
          hbr hsub
    · rcases RLeafAt_shape hrest with ⟨k1, t, i, vo, rfl, hget⟩
      have hk : k ≠ k1 := by
        intro he
        subst he
        have hnone : rGet rest k = none := rGet_eq_none_iff.mpr hnod
        rw [hnone] at hget
        cases hget
      have hlift : rGet ((k, v) :: rest) k1 = rGet rest k1 := by
        simp [rGet, hk]
      cases hrest with
      | here hget2 hleaf => exact RLeafAt.here (hlift.trans hget2) hleaf
      | deeper hget2 hbr hsub => exact RLeafAt.deeper (hlift.trans hget2) hbr hsub

theorem RLeafAt_leaf {E : RObj} {p : List String} {L : RObj}
    (h : RLeafAt E p L) : isLeafNodeR L = true := by
  induction h with
  | here _ hleaf => exact hleaf
  | deeper _ _ _ ih => exact ih

theorem mismatchAtR_cons_some {A a : RJson} {k : String}
    (h : rProp A k = some a) (t : List String) (L : RObj) :
    mismatchAtR A (k :: t) L ↔ mismatchAtR a t L := by
  unfold mismatchAtR
  rw [rPathGet_cons, h]

theorem mismatchAtR_cons_none {A : RJson} {k : String}
    (h : rProp A k = none) (t : List String) (L : RObj) :
    mismatchAtR A (k :: t) L := by
  unfold mismatchAtR
  rw [rPathGet_cons, h]
  exact Or.inl rfl

theorem hasLeafBR_to_RLeafAt : (E : RObj) → (E.map Prod.fst).Nodup → wfObjR E = true →
    hasLeafBR E = true → ∃ p L, RLeafAt E p L
  | [], _, _, h => by cases h
  | (k, v) :: rest, hnd, hwo, h => by
      have hnod : k ∉ rest.map Prod.fst := by
        simp only [List.map_cons, List.nodup_cons] at hnd
        exact hnd.1
      have hndr : (rest.map Prod.fst).Nodup := by
        simp only [List.map_cons, List.nodup_cons] at hnd
        exact hnd.2
      have hwr : wfObjR rest = true := by
        simp only [wfObjR, Bool.and_eq_true] at hwo
        exact hwo.2
      have hwv : wfR v = true := by
        simp only [wfObjR, Bool.and_eq_true] at hwo
        exact hwo.1
      have hsplit : hasLeafVR v = true ∨ hasLeafBR rest = true := by
        simpa [hasLeafBR] using h
      rcases hsplit with hv | hr
      · cases v with
        | obj i vo =>
          by_cases hleaf : isLeafNodeR vo = true
          · exact ⟨[k], vo, RLeafAt.here
              (show rGet ((k, RJson.obj i vo) :: rest) k = some (RJson.obj i vo) by
                simp [rGet]) hleaf⟩
          · have hbr : isLeafNodeR vo = false := by simpa using hleaf
            have hB : hasLeafBR vo = true := by simpa [hasLeafVR, hbr] using hv
            have hparts := wfR_obj_parts hwv
            rcases hasLeafBR_to_RLeafAt vo hparts.1 hparts.2 hB with ⟨p, L, hsub⟩
            exact ⟨k :: p, L, RLeafAt.deeper
              (show rGet ((k, RJson.obj i vo) :: rest) k = some (RJson.obj i vo) by
                simp [rGet]) hbr hsub⟩
        | null => cases hv
        | bool b => cases hv
        | num s => cases hv
        | str s => cases hv
        | arr i xs => cases hv
      · rcases hasLeafBR_to_RLeafAt rest hndr hwr hr with ⟨p, L, hsub⟩
        exact ⟨p, L, (RLeafAt_cons_iff hnod).mpr (Or.inr hsub)⟩
termination_by E => sizeOf E
decreasing_by all_goals (simp_wf <;> (try subst_vars) <;> (try simp_wf) <;> omega)

/-- Against an empty actual object, the reference-aware drift check reports
drift exactly when the expected tree contains any leaf. -/
theorem driftEmptyR_eq :
    (E : RObj) → ∀ i, hasDriftRecursiveR (RJson.obj i []) E = hasLeafBR E
  | [], _ => rfl
  | (k, v) :: rest, i => by
      have hrest := driftEmptyR_eq rest i
      cases v with
      | obj j vo =>
        by_cases hleaf : isLeafNodeR vo = true
        · simp [hasDriftRecursiveR, hasDriftEntryR, hleaf, rProp, rGet, hasLeafBR,
            hasLeafVR, hrest]
        · have hbr : isLeafNodeR vo = false := by simpa using hleaf
          have hvo := driftEmptyR_eq vo 0
          simp only [hasDriftRecursiveR, hasDriftEntryR, hbr, Bool.false_eq_true, if_false,
            rProp, rGet, hasLeafBR, hasLeafVR, hvo, hrest]
          cases hasLeafBR vo <;> simp
      | null => simp [hasDriftRecursiveR, hasDriftEntryR, hasLeafBR, hasLeafVR, hrest]
      | bool b => simp [hasDriftRecursiveR, hasDriftEntryR, hasLeafBR, hasLeafVR, hrest]
      | num s => simp [hasDriftRecursiveR, hasDriftEntryR, hasLeafBR, hasLeafVR, hrest]
      | str s => simp [hasDriftRecursiveR, hasDriftEntryR, hasLeafBR, hasLeafVR, hrest]
      | arr j xs => simp [hasDriftRecursiveR, hasDriftEntryR, hasLeafBR, hasLeafVR, hrest]
termination_by E => sizeOf E
decreasing_by all_goals (simp_wf <;> (try subst_vars) <;> (try simp_wf) <;> omega)

theorem driftWitnessR_cons {A : RJson} {k : String} {v : RJson} {rest : RObj}
    (hnod : k ∉ rest.map Prod.fst) :
    driftWitnessR A ((k, v) :: rest) ↔
      ((∃ i vo, v = RJson.obj i vo ∧
         ((isLeafNodeR vo = true ∧ mismatchAtR A [k] vo)
          ∨ (isLeafNodeR vo = false ∧
              ∃ t L, RLeafAt vo t L ∧ mismatchAtR A (k :: t) L)))
       ∨ driftWitnessR A rest) := by
  constructor
  · rintro ⟨p, L, hL, hm⟩
    rcases (RLeafAt_cons_iff hnod).mp hL with ⟨i, vo, rfl, hcase⟩ | hrest
    · rcases hcase with ⟨rfl, rfl, hleaf⟩ | ⟨hbr, t, rfl, hsub⟩
      · exact Or.inl ⟨i, L, rfl, Or.inl ⟨hleaf, hm⟩⟩
      · exact Or.inl ⟨i, vo, rfl, Or.inr ⟨hbr, t, L, hsub, hm⟩⟩
    · exact Or.inr ⟨p, L, hrest, hm⟩
  · rintro (⟨i, vo, rfl, hcase⟩ | ⟨p, L, hL, hm⟩)
    · rcases hcase with ⟨hleaf, hm⟩ | ⟨hbr, t, L, hsub, hm⟩
      · exact ⟨[k], vo,
          (RLeafAt_cons_iff hnod).mpr (Or.inl ⟨i, vo, rfl, Or.inl ⟨rfl, rfl, hleaf⟩⟩), hm⟩
      · exact ⟨k :: t, L,
          (RLeafAt_cons_iff hnod).mpr (Or.inl ⟨i, vo, rfl, Or.inr ⟨hbr, t, rfl, hsub⟩⟩),
          hm⟩
    · exact ⟨p, L, (RLeafAt_cons_iff hnod).mpr (Or.inr hL), hm⟩

mutual

/-- The reference-faithful drift check returns true exactly when some
expected leaf is missing or strict-unequal along the corresponding property
path of the actual value. -/
theorem driftEquivR : (E : RObj) → (A : RJson) → (E.map Prod.fst).Nodup →
    wfObjR E = true → (hasDriftRecursiveR A E = true ↔ driftWitnessR A E)
  | [], A, _, _ => by
      constructor
      · intro h
        simp [hasDriftRecursiveR] at h
      · rintro ⟨p, L, hL, _⟩
        exact absurd hL RLeafAt_nil
  | (k, v) :: rest, A, hnd, hwo => by
      have hnod : k ∉ rest.map Prod.fst := by
        simp only [List.map_cons, List.nodup_cons] at hnd
        exact hnd.1
      have hndr : (rest.map Prod.fst).Nodup := by
        simp only [List.map_cons, List.nodup_cons] at hnd
        exact hnd.2
      have hwr : wfObjR rest = true := by
        simp only [wfObjR, Bool.and_eq_true] at hwo
        exact hwo.2
      have hwv : wfR v = true := by
        simp only [wfObjR, Bool.and_eq_true] at hwo
        exact hwo.1
      have hIH := driftEquivR rest A hndr hwr
      have hE := driftEntryEquivR v A k hwv
      rw [driftWitnessR_cons hnod]
      constructor
      · intro h
        by_cases he : hasDriftEntryR A k v = true
        · exact Or.inl (hE.mp he)
        · have hr : hasDriftRecursiveR A rest = true := by
            simpa [hasDriftRecursiveR, he] using h
          exact Or.inr (hIH.mp hr)
      · intro h
        rcases h with hentry | hrest
        · have := hE.mpr hentry
          simp [hasDriftRecursiveR, this]
        · by_cases he : hasDriftEntryR A k v = true
          · simp [hasDriftRecursiveR, he]
          · simp [hasDriftRecursiveR, he, hIH.mpr hrest]
termination_by E _ _ _ => sizeOf E
decreasing_by all_goals (simp_wf; try omega)

/-- Entry-level version of `driftEquivR`. -/
theorem driftEntryEquivR : (v : RJson) → (A : RJson) → (k : String) → wfR v = true →
    (hasDriftEntryR A k v = true ↔
      (∃ i vo, v = RJson.obj i vo ∧
        ((isLeafNodeR vo = true ∧ mismatchAtR A [k] vo)
         ∨ (isLeafNodeR vo = false ∧
             ∃ t L, RLeafAt vo t L ∧ mismatchAtR A (k :: t) L))))
  | RJson.obj i vo, A, k, hwv => by
      have hparts := wfR_obj_parts hwv
      by_cases hleaf : isLeafNodeR vo = true
      · constructor
        · intro h
          refine ⟨i, vo, rfl, Or.inl ⟨hleaf, ?_⟩⟩
          cases hp : rProp A k with
          | none => exact Or.inl (by rw [rPathGet_singleton, hp])
          | some a =>
            refine Or.inr ⟨a, by rw [rPathGet_singleton, hp], ?_⟩
            by_cases ht : rTruthy a = true
            · have hany : vo.any
                  (fun q => decide ((rProp a q.1).map refOf ≠ some (refOf q.2)))
                    = true := by
                simpa [hasDriftEntryR, hleaf, hp, ht] using h
              rcases List.any_eq_true.mp hany with ⟨kv, hmem, hkv⟩
              exact ⟨kv, hmem, of_decide_eq_true hkv⟩
            · have hdead : deadR a = true := deadR_of_falsy (by simpa using ht)
              rcases leafR_model_mem hleaf with ⟨m, hm⟩
              exact ⟨("model", RJson.str m), hm, by rw [deadR_no_model hdead]; simp⟩
        · rintro ⟨i', vo', heq, hcase⟩
          injection heq with h1 h2
          subst h2
          rcases hcase with ⟨_, hm⟩ | ⟨hbr, _⟩
          · rcases hm with hnone | ⟨a, ha, kv, hmem, hne⟩
            · rw [rPathGet_singleton] at hnone
              simp [hasDriftEntryR, hleaf, hnone]
            · rw [rPathGet_singleton] at ha
              by_cases ht : rTruthy a = true
              · simp [hasDriftEntryR, hleaf, ha, ht]
                refine ⟨kv.1, kv.2, by simpa using hmem, ?_⟩
                intro x hx hrf
                exact hne (by simp [hx, hrf])
              · simp [hasDriftEntryR, hleaf, ha, ht]
          · rw [hleaf] at hbr
            cases hbr
      · have hbr : isLeafNodeR vo = false := by simpa using hleaf
        constructor
        · intro h
          refine ⟨i, vo, rfl, Or.inr ⟨hbr, ?_⟩⟩
          cases hp : rProp A k with
          | none =>
            have hchild : hasDriftRecursiveR (RJson.obj 0 []) vo = true := by
              simpa [hasDriftEntryR, hbr, hp] using h
            rw [driftEmptyR_eq] at hchild
            rcases hasLeafBR_to_RLeafAt vo hparts.1 hparts.2 hchild with ⟨t, L, hL⟩
            exact ⟨t, L, hL, mismatchAtR_cons_none hp t L⟩
          | some a =>
            by_cases ht : rTruthy a = true
            · have hchild : hasDriftRecursiveR a vo = true := by
                simpa [hasDriftEntryR, hbr, hp, ht] using h
              rcases (driftEquivR vo a hparts.1 hparts.2).mp hchild with ⟨t, L, hL, hm⟩
              exact ⟨t, L, hL, (mismatchAtR_cons_some hp t L).mpr hm⟩
            · have hchild : hasDriftRecursiveR (RJson.obj 0 []) vo = true := by
                simpa [hasDriftEntryR, hbr, hp, ht] using h
              rw [driftEmptyR_eq] at hchild
              rcases hasLeafBR_to_RLeafAt vo hparts.1 hparts.2 hchild with ⟨t, L, hL⟩
              refine ⟨t, L, hL, (mismatchAtR_cons_some hp t L).mpr ?_⟩
              exact deadR_mismatch (deadR_of_falsy (by simpa using ht)) (RLeafAt_leaf hL)
        · rintro ⟨i', vo', heq, hcase⟩
          injection heq with h1 h2
          subst h2
          rcases hcase with ⟨hlf, _⟩ | ⟨_, t, L, hL, hm⟩
          · rw [hlf] at hbr
            cases hbr
          · cases hp : rProp A k with
            | none =>
              have hBvo : hasLeafBR vo = true := RLeafAt_to_hasLeafBR hL
              simp [hasDriftEntryR, hbr, hp, driftEmptyR_eq, hBvo]
            | some a =>
              by_cases ht : rTruthy a = true
              · have hm' : mismatchAtR a t L := (mismatchAtR_cons_some hp t L).mp hm
                have hda : hasDriftRecursiveR a vo = true :=
                  (driftEquivR vo a hparts.1 hparts.2).mpr ⟨t, L, hL, hm'⟩
                simp [hasDriftEntryR, hbr, hp, ht, hda]
              · have hBvo : hasLeafBR vo = true := RLeafAt_to_hasLeafBR hL
                simp [hasDriftEntryR, hbr, hp, ht, driftEmptyR_eq, hBvo]
  | RJson.null, A, k, _ => by
      constructor
      · intro h
        simp [hasDriftEntryR] at h
      · rintro ⟨i, vo, heq, _⟩
        cases heq
  | RJson.bool b, A, k, _ => by
      constructor
      · intro h
        simp [hasDriftEntryR] at h
      · rintro ⟨i, vo, heq, _⟩
        cases heq
  | RJson.num s, A, k, _ => by
      constructor
      · intro h
        simp [hasDriftEntryR] at h
      · rintro ⟨i, vo, heq, _⟩
        cases heq
  | RJson.str s, A, k, _ => by
      constructor
      · intro h
        simp [hasDriftEntryR] at h
      · rintro ⟨i, vo, heq, _⟩
        cases heq
  | RJson.arr j xs, A, k, _ => by
      constructor
      · intro h
        simp [hasDriftEntryR] at h
      · rintro ⟨i, vo, heq, _⟩
        cases heq
termination_by v _ _ _ => sizeOf v
decreasing_by all_goals (simp_wf; try omega)

end

theorem RLeafAt_path_self {E : RObj} {p : List String} {L : RObj}
    (h : RLeafAt E p L) :
    ∀ i, ∃ j, rPathGet (RJson.obj i E) p = some (RJson.obj j L) := by
  induction h with
  | @here _ _ j0 _ hget _ =>
    intro i
    exact ⟨j0, by rw [rPathGet_singleton]; simpa [rProp] using hget⟩
  | @deeper _ _ j0 _ _ _ hget _ _ ih =>
    intro i
    rcases ih j0 with ⟨j, hj⟩
    exact ⟨j, by rw [rPathGet_cons]; simp only [rProp, hget]; exact hj⟩

/-- The reference-faithful drift check is reflexive on well-formed trees:
comparing a tree against itself compares identical references, so every
strict field comparison succeeds. -/
theorem drift_selfR_false {X : RObj} {i : Nat}
    (hnd : (X.map Prod.fst).Nodup) (hwo : wfObjR X = true) :
    hasDriftRecursiveR (RJson.obj i X) X = false := by
  cases hb : hasDriftRecursiveR (RJson.obj i X) X with
  | false => rfl
  | true =>
    exfalso
    rcases (driftEquivR X (RJson.obj i X) hnd hwo).mp hb with ⟨p, L, hL, hm⟩
    rcases RLeafAt_path_self hL i with ⟨j, hpath⟩
    rcases hm with hnone | ⟨a, ha, kv, hmem, hne⟩
    · rw [hpath] at hnone
      cases hnone
    · rw [hpath, Option.some_inj] at ha
      subst ha
      have hnL : (L.map Prod.fst).Nodup := nodupR_of_RLeafAt hL hwo
      obtain ⟨kk, vv⟩ := kv
      apply hne
      have hg : rProp (RJson.obj j L) kk = some vv := by
        simpa [rProp] using rGet_of_mem_nodup hnL hmem
      simp [hg]

/-- C2 (amended): over well-formed runtime values (objects with distinct
keys, object/array nodes carrying their heap identity),
`hasDriftRecursive(A, E)` returns true iff some leaf of `E` (per the
model-is-a-string predicate, reached through non-leaf objects) is missing at
the corresponding property path of `A`, or some field present in that
expected leaf is not JavaScript-strict-equal to the same field of `A`'s node
at that path — primitives comparing by value, objects and arrays by
reference identity, so a structurally equal but separately constructed
object-valued field still counts as drift. Since the condition only
quantifies over `E`'s leaves and their fields, fields present only in `A`
never cause drift; and `hasDriftRecursive(X, X)` is false for every
well-formed tree `X` compared against itself, because both sides then hold
identical references. -/
theorem c2_has_drift_ref (A : RJson) (E X : RObj) (i : Nat)
    (hE : wfR (RJson.obj 0 E) = true) (hX : wfR (RJson.obj 0 X) = true) :
    (hasDriftRecursiveR A E = true ↔ driftWitnessR A E)
    ∧ hasDriftRecursiveR (RJson.obj i X) X = false :=
  ⟨driftEquivR E A (wfR_obj_parts hE).1 (wfR_obj_parts hE).2,
   drift_selfR_false (wfR_obj_parts hX).1 (wfR_obj_parts hX).2⟩

/-- Witness for `c2_has_drift_ref` at concrete runtime values: a missing
leaf drifts, and a tree never drifts against itself (identical references on
both sides). -/
theorem c2_has_drift_ref_witness :
    ((hasDriftRecursiveR (RJson.obj 0 []) c2refE = true ↔
        driftWitnessR (RJson.obj 0 []) c2refE)
     ∧ hasDriftRecursiveR (RJson.obj 7 c2refE) c2refE = false)
    ∧ hasDriftRecursiveR (RJson.obj 0 []) c2refE = true :=
  ⟨c2_has_drift_ref (RJson.obj 0 []) c2refE c2refE 7 (by decide) (by decide),
   by decide⟩

/-- C2 counterexample: the original claim reads the field comparison
structurally ("some field present in that expected leaf differs"), i.e.
drift iff a structural mismatch of the underlying JSON values. The source
compares with `!==`, which on object/array-valued fields is reference
inequality: the actual document `cexRA` and the expected preset `cexRE`
erase to identical JSON values, so the structural condition reports no drift
(via `driftEquiv`), yet `hasDriftRecursive` returns true because the two
structurally equal `opts` objects are distinct heap objects. -/
theorem c2_structural_neq_cex :
    ¬ (∀ (A : RJson) (E : RObj), wfR (RJson.obj 0 E) = true →
        (hasDriftRecursiveR A E = true ↔ driftWitness (eraseR A) (eraseObjR E))) := by
  intro h
  have hw : driftWitness (eraseR cexRA) (eraseObjR cexRE) :=
    (h cexRA cexRE (by decide)).mp (by decide)
  have hd : hasDriftRecursive (eraseR cexRA) (eraseObjR cexRE) = true :=
    (driftEquiv (eraseObjR cexRE) (eraseR cexRA) (by decide)).mpr hw
  exact absurd hd (by decide)

/-! ### C3/C8: the comment-preserving save path -/

theorem deepEqualFields_forall {fs : List (String × Json)} {gs : JsonObj}
    (h : deepEqualFields fs gs = true) :
    ∀ kv ∈ fs, ∃ w, jsGet gs kv.1 = some w ∧ deepEqual kv.2 w = true := by
  induction fs with
  | nil => simp
  | cons hd tl ih =>
    cases hd with
    | mk k v =>
      simp only [deepEqualFields, Bool.and_eq_true] at h
      intro kv hkv
      rcases List.mem_cons.mp hkv with he | he
      · subst he
        cases hg : jsGet gs k with
        | none => rw [hg] at h; exact absurd h.1 (by simp)
        | some w =>
          rw [hg] at h
          exact ⟨w, rfl, h.1⟩
      · exact ih h.2 kv he

theorem deepEqual_obj_inv {fs gs : List (String × Json)}
    (h : deepEqual (Json.obj fs) (Json.obj gs) = true) :
    fs.length = gs.length ∧ deepEqualFields fs gs = true := by
  simp only [deepEqual, Bool.and_eq_true, beq_iff_eq] at h
  exact h

theorem deepEqual_obj_right {O D : Json} {dfs : List (String × Json)}
    (hD : D = Json.obj dfs) (h : deepEqual O D = true) :
    ∃ ofs, O = Json.obj ofs := by
  subst hD
  cases O with
  | obj ofs => exact ⟨ofs, rfl⟩
  | null => cases h
  | bool b => cases h
  | num s => cases h
  | str s => cases h
  | arr xs => cases h

theorem deepEqual_arr_right {O D : Json} {ds : List Json}
    (hD : D = Json.arr ds) (h : deepEqual O D = true) :
    ∃ os, O = Json.arr os := by
  subst hD
  cases O with
  | arr os => exact ⟨os, rfl⟩
  | null => cases h
  | bool b => cases h
  | num s => cases h
  | str s => cases h
  | obj o => cases h

/-- Key inversion over well-formed objects: if the objects are deep-equal,
then every field of the right object is matched by a deep-equal field of the
left one. -/
theorem deepEqual_obj_reverse {ofs dfs : List (String × Json)}
    (hno : (ofs.map Prod.fst).Nodup) (hnd : (dfs.map Prod.fst).Nodup)
    (h : deepEqual (Json.obj ofs) (Json.obj dfs) = true) :
    ∀ kv ∈ dfs, ∃ v, jsGet ofs kv.1 = some v ∧ deepEqual v kv.2 = true := by
  obtain ⟨hlen, hfields⟩ := deepEqual_obj_inv h
  have hforall := deepEqualFields_forall hfields
  -- key sets agree
  have hsub : ∀ k ∈ ofs.map Prod.fst, k ∈ dfs.map Prod.fst := by
    intro k hk
    rcases List.mem_map.mp hk with ⟨⟨k1, v1⟩, hmem, rfl⟩
    rcases hforall (k1, v1) hmem with ⟨w, hg, _⟩
    exact List.mem_map.mpr ⟨(k1, w), jsGet_mem hg, rfl⟩
  have hfin : (ofs.map Prod.fst).toFinset = (dfs.map Prod.fst).toFinset := by
    apply Finset.eq_of_subset_of_card_le
    · intro k hk
      exact List.mem_toFinset.mpr (hsub k (List.mem_toFinset.mp hk))
    · rw [List.toFinset_card_of_nodup hnd, List.toFinset_card_of_nodup hno]
      simp [hlen]
  intro kv hkv
  have hkmem : kv.1 ∈ ofs.map Prod.fst := by
    have : kv.1 ∈ (dfs.map Prod.fst).toFinset :=
      List.mem_toFinset.mpr (List.mem_map.mpr ⟨kv, hkv, rfl⟩)
    rw [← hfin] at this
    exact List.mem_toFinset.mp this
  rcases jsGet_isSome_of_mem_keys hkmem with ⟨v, hv⟩
  rcases hforall (kv.1, v) (jsGet_mem hv) with ⟨w, hw, hdeq⟩
  obtain ⟨kk, vv⟩ := kv
  have hw' : jsGet dfs kk = some vv := jsGet_of_mem_nodup hnd hkv
  rw [hw'] at hw
  cases hw
  exact ⟨v, hv, hdeq⟩

theorem deepEqualArr_pointwise {os ds : List Json}
    (hlen : os.length = ds.length) (h : deepEqualArr os ds = true) :
    ∀ i d, ds.get? i = some d → ∃ o, os.get? i = some o ∧ deepEqual o d = true := by
  induction os generalizing ds with
  | nil =>
    intro i d hd
    cases ds with
    | nil => simp at hd
    | cons y ys => simp at hlen
  | cons x xs ih =>
    intro i d hd
    cases ds with
    | nil => simp at hd
    | cons y ys =>
      simp only [deepEqualArr, Bool.and_eq_true] at h
      cases i with
      | zero =>
        simp only [List.get?] at hd
        cases hd
        exact ⟨x, rfl, h.1⟩
      | succ n =>
        simp only [List.get?] at hd ⊢
        exact ih (by simpa using hlen) h.2 n d hd

theorem getValueAtPath_obj_singleton (fs : JsonObj) (k : String) :
    getValueAtPath (Json.obj fs) [k] = jsGet fs k := by
  cases h : jsGet fs k <;> simp [getValueAtPath, getValueAtPathGo, h]

theorem getValueAtPath_arr_singleton (xs : List Json) (k : String) :
    getValueAtPath (Json.arr xs) [k] = jsProp (Json.arr xs) k := by
  cases h : jsProp (Json.arr xs) k <;> simp [getValueAtPath, getValueAtPathGo, h]

/-- The short-circuit of `updateLeafValues`: a deep-equal original value
means the text is returned untouched, whatever the edit services do. -/
theorem updateLeafValues_skip {env : PatchEnv} {content : String}
    {basePath : List String} {newValue originalData ov : Json}
    (h1 : getValueAtPath originalData basePath = some ov)
    (h2 : deepEqual ov newValue = true) :
    updateLeafValues env content basePath newValue originalData = content := by
  have hskip : skipUnchanged (getValueAtPath originalData basePath) newValue = true := by
    rw [h1]; exact h2
  cases newValue <;> simp [updateLeafValues, hskip]

theorem updateLeafObj_skip_all {env : PatchEnv} {O : Json} :
    ∀ (entries : JsonObj) (content : String),
      (∀ kv ∈ entries, ∃ ov, getValueAtPath O [kv.1] = some ov ∧ deepEqual ov kv.2 = true) →
      updateLeafObj env content [] entries O = content := by
  intro entries
  induction entries with
  | nil =>
    intro content _
    rfl
  | cons hd tl ih =>
    intro content hall
    cases hd with
    | mk k v =>
      rcases hall (k, v) (List.mem_cons_self _ _) with ⟨ov, hov, hdeq⟩
      have hskip : updateLeafValues env content ([] ++ [k]) v O = content := by
        simpa using updateLeafValues_skip hov hdeq
      simp only [updateLeafObj, hskip]
      exact ih content (fun kv hkv => hall kv (List.mem_cons_of_mem _ hkv))

theorem natToDecCore_eq_append (n : Nat) :
    ∀ acc, natToDecCore n acc = natToDecCore n [] ++ acc := by
  induction n using Nat.strong_induction_on with
  | _ n ih =>
    intro acc
    by_cases h : n < 10
    · conv_lhs => rw [natToDecCore]
      conv_rhs => rw [natToDecCore]
      simp [h]
    · conv_lhs => rw [natToDecCore]
      conv_rhs => rw [natToDecCore]
      rw [dif_neg h, dif_neg h]
      have hlt : n / 10 < n := Nat.div_lt_self (by omega) (by omega)
      rw [ih (n / 10) hlt (Char.ofNat (n % 10 + 48) :: acc),
          ih (n / 10) hlt [Char.ofNat (n % 10 + 48)]]
      simp

theorem digit_char_isDigit {r : Nat} (hr : r < 10) :
    (Char.ofNat (r + 48)).isDigit = true := by
  interval_cases r <;> decide

theorem digit_char_toNat {r : Nat} (hr : r < 10) :
    (Char.ofNat (r + 48)).toNat = r + 48 := by
  interval_cases r <;> decide

theorem natToDecCore_ne_nil (n : Nat) : natToDecCore n [] ≠ [] := by
  by_cases h : n < 10
  · rw [natToDecCore, dif_pos h]
    simp
  · rw [natToDecCore, dif_neg h]
    rw [natToDecCore_eq_append]
    simp

theorem natToDecCore_all_digits (n : Nat) :
    ∀ c ∈ natToDecCore n [], c.isDigit = true := by
  induction n using Nat.strong_induction_on with
  | _ n ih =>
    by_cases h : n < 10
    · rw [natToDecCore, dif_pos h]
      intro c hc
      rcases List.mem_singleton.mp hc with rfl
      exact digit_char_isDigit (Nat.mod_lt _ (by omega))
    · rw [natToDecCore, dif_neg h, natToDecCore_eq_append]
      intro c hc
      rcases List.mem_append.mp hc with hm | hm
      · exact ih (n / 10) (Nat.div_lt_self (by omega) (by omega)) c hm
      · rcases List.mem_singleton.mp hm with rfl
        exact digit_char_isDigit (Nat.mod_lt _ (by omega))

theorem natToDecCore_foldl (n : Nat) :
    (natToDecCore n []).foldl (fun a ch => a * 10 + (ch.toNat - 48)) 0 = n := by
  induction n using Nat.strong_induction_on with
  | _ n ih =>
    by_cases h : n < 10
    · rw [natToDecCore, dif_pos h]
      simp only [List.foldl_cons, List.foldl_nil]
      rw [digit_char_toNat (Nat.mod_lt _ (by omega))]
      omega
    · rw [natToDecCore, dif_neg h, natToDecCore_eq_append, List.foldl_append]
      rw [ih (n / 10) (Nat.div_lt_self (by omega) (by omega))]
      simp only [List.foldl_cons, List.foldl_nil]
      rw [digit_char_toNat (Nat.mod_lt _ (by omega))]
      omega

/-- JavaScript round-trip between a natural number and its canonical decimal
rendering: parsing `String(n)` back as an array-index key yields `n`. -/
theorem strToNat_natToDec (n : Nat) : strToNat? (natToDec n) = some n := by
  cases hc : natToDecCore n [] with
  | nil => exact absurd hc (natToDecCore_ne_nil n)
  | cons c cs =>
    have hdig : (c :: cs).all Char.isDigit = true := by
      rw [List.all_eq_true]
      intro x hx
      have := natToDecCore_all_digits n x (by rw [hc]; exact hx)
      simpa using this
    have hfold : (c :: cs).foldl (fun a ch => a * 10 + (ch.toNat - 48)) 0 = n := by
      rw [← hc]; exact natToDecCore_foldl n
    simp only [strToNat?, natToDec, hc, hdig, if_pos, hfold]

theorem jsProp_arr_natToDec (xs : List Json) (i : Nat) :
    jsProp (Json.arr xs) (natToDec i) = xs.get? i := by
  simp [jsProp, strToNat_natToDec]

/-- Every top-level entry that `saveJsonFile` iterates over has, in the parsed
original document, a deep-equal original value at its one-key path — provided
the whole data tree deep-equals the parsed original. -/
theorem save_entries_skip {O D : Json}
    (heq : deepEqual O D = true) (hwO : wfJson O = true) (hwD : wfJson D = true) :
    ∀ kv ∈ entriesForKeys D,
      ∃ ov, getValueAtPath O [kv.1] = some ov ∧ deepEqual ov kv.2 = true := by
  cases D with
  | null => intro kv hkv; simp [entriesForKeys] at hkv
  | bool b => intro kv hkv; simp [entriesForKeys] at hkv
  | num s => intro kv hkv; simp [entriesForKeys] at hkv
  | str s => intro kv hkv; simp [entriesForKeys] at hkv
  | obj dfs =>
    rcases deepEqual_obj_right rfl heq with ⟨ofs, rfl⟩
    have hno := (wfJson_obj_parts hwO).1
    have hnd := (wfJson_obj_parts hwD).1
    intro kv hkv
    simp only [entriesForKeys] at hkv
    rcases deepEqual_obj_reverse hno hnd heq kv hkv with ⟨v, hv, hdeq⟩
    exact ⟨v, by rw [getValueAtPath_obj_singleton, hv], hdeq⟩
  | arr ds =>
    rcases deepEqual_arr_right rfl heq with ⟨os, rfl⟩
    simp only [deepEqual, Bool.and_eq_true, beq_iff_eq] at heq
    intro kv hkv
    simp only [entriesForKeys] at hkv
    rcases List.mem_map.mp hkv with ⟨⟨i, d⟩, hp, hfp⟩
    have h1 : kv.1 = natToDec i := by rw [← hfp]
    have h2 : kv.2 = d := by rw [← hfp]
    have hget : ds.get? i = some d := by
      rw [List.get?_eq_getElem?]
      exact List.mem_enum_iff_getElem?.mp hp
    rcases deepEqualArr_pointwise heq.1 heq.2 i d hget with ⟨o, ho, hdeq⟩
    refine ⟨o, ?_, ?_⟩
    · rw [h1, getValueAtPath_arr_singleton, jsProp_arr_natToDec]
      exact ho
    · rw [h2]
      exact hdeq

/-- The no-change round trip of `saveJsonFile`: under the patching branch's
own guards, a data tree deep-equal to the parse of the cached text leaves the
text byte-identical, and the refreshed cache equals it too. -/
theorem saveJsonFile_no_change (env : PatchEnv) (C : String) (D : Json)
    (heq : deepEqual (env.parseJsonc C) D = true)
    (hwO : wfJson (env.parseJsonc C) = true) (hwD : wfJson D = true)
    (hC : C ≠ "") (hD : typeofObjectNonNull D = true) :
    saveJsonFile env (some C) D = (C, C) := by
  have hcond : (C != "" && typeofObjectNonNull D) = true := by
    simp [bne, hC, hD]
  simp only [saveJsonFile, hcond, if_true]
  rw [updateLeafObj_skip_all (entriesForKeys D) C (save_entries_skip heq hwO hwD)]

/-- C1 (amended): after a successful merge of preset `P` into target `T`, at
every leaf path of `P` the result holds the field-wise overlay of the leaf
over the prior target object (fields of the leaf win, fields only in the
prior object are preserved, and the leaf's fields are overlaid over nothing
when the slot was absent); every target path absent from `P` that does not
strictly extend a leaf path of `P` keeps its exact prior value; and every
target path not strictly extending a leaf path of `P` is still present after
the merge. (Paths strictly extending a leaf path sit inside field values of
that leaf, which the overlay replaces wholesale.) -/
theorem c1_deep_merge (P T R : JsonObj)
    (hw : wfJson (Json.obj P) = true)
    (hm : deepMergeModel T P = some R) :
    (∀ p L, LeafAt P p L →
       ((∀ o, getPath (Json.obj T) p = some (Json.obj o) →
           getPath (Json.obj R) p = some (Json.obj (jsSpread2 o L))
           ∧ ∀ f, jsGet (jsSpread2 o L) f
               = (match jsGet L f with
                  | some x => some x
                  | none => jsGet o f))
        ∧ (getPath (Json.obj T) p = none →
           getPath (Json.obj R) p = some (Json.obj (jsSpread2 [] L)))))
    ∧ (∀ p w, getPath (Json.obj T) p = some w → getPath (Json.obj P) p = none →
        (∀ q L, LeafAt P q L → ¬ isProperPre q p) →
        getPath (Json.obj R) p = some w)
    ∧ (∀ p w, getPath (Json.obj T) p = some w →
        (∀ q L, LeafAt P q L → ¬ isProperPre q p) →
        ∃ w', getPath (Json.obj R) p = some w') := by
  refine ⟨?_, ?_, ?_⟩
  · intro p L hl
    have hnL : (L.map Prod.fst).Nodup := (wfJson_obj_parts (wf_of_LeafAt hl hw)).1
    rcases deepMerge_leafPath hl hw hm with ⟨hA, hB⟩
    exact ⟨fun o ho => ⟨hA o ho, fun f => jsGet_spread2 o L f hnL⟩, hB⟩
  · intro p w hT hPn havoid
    exact deepMerge_untouchedPath p hw hm hT hPn havoid
  · intro p w hT havoid
    exact deepMerge_presencePath p hw hm hT havoid

/-- C1 counterexample to the claim as stated: a preset leaf may carry an
object-valued extra field; its overlay replaces the target's field
wholesale, deleting nested target content at a path that is present in the
target and absent from the preset. -/
theorem c1_deep_merge_cex :
    ¬ (∀ T P R : JsonObj, deepMergeModel T P = some R →
        ∀ p w, getPath (Json.obj T) p = some w → getPath (Json.obj P) p = none →
          getPath (Json.obj R) p = some w) := by
  intro h
  have := h c1target c1preset c1result (by decide) ["a", "sub", "z"] (Json.num "9")
    (by decide) (by decide)
  exact absurd this (by decide)

/-- Witness applying `c1_deep_merge` to the spec's merge scenario. -/
theorem c1_deep_merge_witness :
    getPath (Json.obj [("build", Json.obj
        [("model", Json.str "A"), ("temp", Json.num "0.5")])]) ["build"]
      = some (Json.obj (jsSpread2 [("model", Json.str "B")]
          [("model", Json.str "A"), ("temp", Json.num "0.5")])) :=
  (((c1_deep_merge
      [("build", Json.obj [("model", Json.str "A"), ("temp", Json.num "0.5")])]
      [("build", Json.obj [("model", Json.str "B")])]
      [("build", Json.obj [("model", Json.str "A"), ("temp", Json.num "0.5")])]
      (by decide) (by decide)).1 ["build"]
      [("model", Json.str "A"), ("temp", Json.num "0.5")]
      (LeafAt.here (by rfl) (by decide))).1
    [("model", Json.str "B")] (by decide)).1

/-- C9: the formatter renders each leaf entry as one line
`<indent><key>: <model>` followed by ` (<variant>)` when variant is truthy
and by ` [k: v, ...]` with the remaining fields JSON-encoded in iteration
order; each branch entry as `<indent><key>:` followed by its children at one
deeper two-space indent; entry blocks are concatenated and joined by
newlines; on the spec scenario tree at the default indent this yields
exactly `  agent:` / `    build: m1 [temp: 0.5]` / `    plan: m2 (fast)`. -/
theorem c9_format_tree :
    formatHierarchicalTree c9tree "  "
        = "  agent:\n    build: m1 [temp: 0.5]\n    plan: m2 (fast)"
    ∧ (∀ ind k vo, isLeafNode vo = true →
        formatEntryLines k (Json.obj vo) ind = [ind ++ k ++ ": " ++ leafLineText vo])
    ∧ (∀ ind k vo, isLeafNode vo = false →
        formatEntryLines k (Json.obj vo) ind
          = [ind ++ k ++ ":", formatHierarchicalTree vo (ind ++ "  ")])
    ∧ (∀ ind k v rest, formatLines ((k, v) :: rest) ind
          = formatEntryLines k v ind ++ formatLines rest ind)
    ∧ (∀ o ind, formatHierarchicalTree o ind = String.intercalate "\n" (formatLines o ind)) := by
  refine ⟨by decide, ?_, ?_, ?_, ?_⟩
  · intro ind k vo h
    simp [formatEntryLines, h]
  · intro ind k vo h
    simp [formatEntryLines, formatHierarchicalTree, h]
  · intro ind k v rest
    rfl
  · intro o ind
    rfl

/-- Witness instantiating the general rendering rules of `c9_format_tree`. -/
theorem c9_format_tree_witness :
    isLeafNode [("model", Json.str "m")] = true ∧
    formatEntryLines "build" (Json.obj [("model", Json.str "m")]) "  "
      = ["  " ++ "build" ++ ": " ++ leafLineText [("model", Json.str "m")]] :=
  ⟨by decide, c9_format_tree.2.1 "  " "build" [("model", Json.str "m")] (by decide)⟩

/-- C5: switching to a mode name with no configured preset returns the
message `Mode "<name>" not found. Available modes: <names>` (names in
configuration order), performs no writes, raises nothing, and returns the
configuration unchanged. -/
theorem c5_invalid_mode (env : ManagerEnv) (config : ModeSwitcherConfig) (modeName : String)
    (h : lookupPreset config.presets modeName = none) :
    switchModeM env config modeName =
      ([], Except.ok
        ("Mode \"" ++ modeName ++ "\" not found. Available modes: "
            ++ String.intercalate ", " (config.presets.map Prod.fst),
          config)) := by
  unfold switchModeM
  rw [h]

/-- Witness: the spec scenario — `switch("nonexistent")` against presets
`{performance, economy}`. -/
theorem c5_invalid_mode_witness :
    lookupPreset cfgTwo.presets "nonexistent" = none ∧
    switchModeM envQuiet cfgTwo "nonexistent" =
      ([], Except.ok
        ("Mode \"nonexistent\" not found. Available modes: performance, economy", cfgTwo)) :=
  ⟨rfl, (c5_invalid_mode envQuiet cfgTwo "nonexistent" rfl).trans (by rfl)⟩

/-- C4 (code bug demonstration): a failing write of the plugin state file is
not caught anywhere in `switchMode` — `savePluginConfig` sits outside every
try/catch — so the exception escapes the public operation instead of being
rendered as an `error: <message>` result line. -/
theorem c4_plugin_write_failure_escapes :
    (switchModeM envPluginWriteFails cfgTwo "economy").2
      = Except.error "EACCES: permission denied" := by rfl

/-- C10: when neither host document loads (both loads return null),
`hasConfigDrift` is false for every preset, and the startup reconciliation
performs no config-file writes and fires no toast. -/
theorem c10_no_host_docs_clean (env : ManagerEnv) (preset : ModePreset)
    (config : Option ModeSwitcherConfig)
    (h1 : env.opencodeDoc = none) (h2 : env.ohMyDoc = none) :
    hasConfigDriftM env preset = false
    ∧ applyCurrentModeIfNeededM env config = ([], false) := by
  have hd : ∀ p : ModePreset, hasConfigDriftM env p = false := by
    intro p
    simp [hasConfigDriftM, h1, h2]
  refine ⟨hd preset, ?_⟩
  cases config with
  | none => rfl
  | some cfg =>
    simp only [applyCurrentModeIfNeededM]
    cases hl : lookupPreset cfg.presets cfg.currentMode with
    | none => rfl
    | some p => simp [hd]

/-- Witness for `c10_no_host_docs_clean` at a concrete environment. -/
theorem c10_no_host_docs_clean_witness :
    hasConfigDriftM envQuiet presetEmpty = false
    ∧ applyCurrentModeIfNeededM envQuiet (some cfgTwo) = ([], false) :=
  c10_no_host_docs_clean envQuiet presetEmpty (some cfgTwo) rfl rfl

/-- C6 (amended): when the plugin state file exists and its content loads to
a truthy value, `initializeConfig` returns that parsed content verbatim and
attempts no write. -/
theorem c6_existing_config_loaded (env : InitEnv) (j : Json)
    (h1 : env.pluginExists = true) (h2 : env.pluginLoad = some j)
    (h3 : jsTruthy j = true) :
    initializeConfigM env = ([], Except.ok (InitResult.loaded j)) := by
  simp [initializeConfigM, h1, h2, h3]

/-- Witness for `c6_existing_config_loaded`. -/
theorem c6_existing_config_loaded_witness :
    initializeConfigM envExistingLoaded = ([], Except.ok (InitResult.loaded c6json)) :=
  c6_existing_config_loaded envExistingLoaded c6json rfl rfl (by decide)

/-- C6 counterexample: the claim promises no write for *every possible
content* of an existing state file, but when the existing file fails to load
(`loadPluginConfig` returns null, e.g. unreadable or unparseable content)
`initializeConfig` falls through, rebuilds the presets and overwrites the
file. -/
theorem c6_overwrite_on_unparseable :
    ¬ (∀ env : InitEnv, env.pluginExists = true → (initializeConfigM env).1 = []) := by
  intro h
  exact absurd (h envExistingUnparseable rfl) (by decide)

/-- C3 (amended): when the cached original text `C` is nonempty and the data
tree `D` is a non-null object or array (the guards of the patching branch of
`saveJsonFile`), and `D` is deeply equal to the parse of `C` — both sides
well-formed JavaScript values with distinct keys per object node — then
`saveJsonFile` writes output text byte-identical to `C`: no edit is applied
to any subtree, so comments in `C` survive. -/
theorem c3_roundtrip_patch (env : PatchEnv) (C : String) (D : Json)
    (heq : deepEqual (env.parseJsonc C) D = true)
    (hwO : wfJson (env.parseJsonc C) = true) (hwD : wfJson D = true)
    (hC : C ≠ "") (hD : typeofObjectNonNull D = true) :
    (saveJsonFile env (some C) D).1 = C := by
  rw [saveJsonFile_no_change env C D heq hwO hwD hC hD]

/-- Witness for `c3_roundtrip_patch`: a cached text carrying a line comment is
returned byte-identical (comment included) when the data tree deep-equals its
parse. -/
theorem c3_roundtrip_witness :
    (saveJsonFile envObjOne (some c3text) dataObjOne).1 = c3text :=
  c3_roundtrip_patch envObjOne c3text dataObjOne (by decide) (by decide) (by decide)
    (by decide) (by decide)

/-- C3 counterexample: without the patching branch's guards the claim fails —
for primitive data (here the document `"5 //c"`, whose parse `5` is deeply
equal to the data `5`) `saveJsonFile` takes the pretty-print branch and writes
`"5"`, not the original text, discarding the comment. -/
theorem c3_roundtrip_cex :
    ¬ (∀ (env : PatchEnv) (C : String) (D : Json),
        deepEqual (env.parseJsonc C) D = true →
        wfJson (env.parseJsonc C) = true → wfJson D = true →
        (saveJsonFile env (some C) D).1 = C) := by
  intro h
  exact absurd (h envNumFive "5 //c" (Json.num "5") (by decide) (by decide) (by decide))
    (by decide)

/-- C8: (a) after every call to `saveJsonFile` — patching branch and
pretty-print branch alike, cached text present or not — the refreshed cache
entry (second component) equals exactly the text written (first component);
(b) a second save of the same data against the refreshed cache returns the
same text again when the data is a non-null object/array, the first written
text is nonempty and it parses back (as `jsonc-parser` guarantees for text it
produced) to a tree deep-equal to the data; (c) for primitive data the second
save is idempotent with no side conditions at all. -/
theorem c8_cache_refresh :
    (∀ (env : PatchEnv) (cache : Option String) (data : Json),
        (saveJsonFile env cache data).2 = (saveJsonFile env cache data).1)
    ∧ (∀ (env : PatchEnv) (cache : Option String) (data : Json) (c1 : String),
        saveJsonFile env cache data = (c1, c1) →
        deepEqual (env.parseJsonc c1) data = true →
        wfJson (env.parseJsonc c1) = true → wfJson data = true →
        c1 ≠ "" → typeofObjectNonNull data = true →
        saveJsonFile env (some c1) data = (c1, c1))
    ∧ (∀ (env : PatchEnv) (cache : Option String) (data : Json) (c1 : String),
        typeofObjectNonNull data = false →
        saveJsonFile env cache data = (c1, c1) →
        saveJsonFile env (some c1) data = (c1, c1)) := by
  refine ⟨?_, ?_, ?_⟩
  · intro env cache data
    cases cache with
    | none => rfl
    | some orig =>
      simp only [saveJsonFile]
      by_cases h : (orig != "" && typeofObjectNonNull data) = true
      · simp [h]
      · simp [h]
  · intro env cache data c1 _ heq hwO hwD hne hobj
    exact saveJsonFile_no_change env c1 data heq hwO hwD hne hobj
  · intro env cache data c1 hprim hfirst
    have hc1 : c1 = stringifyPretty data "" := by
      cases cache with
      | none =>
        have : (stringifyPretty data "", stringifyPretty data "") = (c1, c1) := hfirst
        exact (congrArg Prod.fst this).symm
      | some orig =>
        have hcond : (orig != "" && typeofObjectNonNull data) = false := by
          simp [hprim]
        simp only [saveJsonFile, hcond, Bool.false_eq_true, if_false] at hfirst
        exact (congrArg Prod.fst hfirst).symm
    have hcond2 : (c1 != "" && typeofObjectNonNull data) = false := by
      simp [hprim]
    simp only [saveJsonFile, hcond2, Bool.false_eq_true, if_false]
    rw [hc1]

/-- Witness for `c8_cache_refresh`: with the one-field document, the first
save (no cache) pretty-prints and refreshes the cache with the written text,
and the second save against that cache returns the identical text. -/
theorem c8_cache_refresh_witness :
    (saveJsonFile envObjOne (some c8text) dataObjOne = (c8text, c8text))
    ∧ (saveJsonFile envObjOne none dataObjOne).2
        = (saveJsonFile envObjOne none dataObjOne).1 :=
  ⟨c8_cache_refresh.2.1 envObjOne none dataObjOne c8text (by decide) (by decide)
      (by decide) (by decide) (by decide) (by decide),
    c8_cache_refresh.1 envObjOne none dataObjOne⟩

end AgentModes
